import Mathlib

/-!
Verification model of the Chroma-backed conversational memory service
(`chroma_memory_service.py`): the metadata codec that flattens transcript
events into scalar-valued records, and the memory store that ingests
sessions and answers hybrid search queries.

Python scalars (str / int / float / bool) are modelled by `Scalar`, with
Python floats modelled as rationals.  Structured payloads (actions,
grounding metadata, custom metadata, tool-id collections) are serialized
by external libraries (pydantic `model_dump_json`, `json.dumps`, the
list-literal `repr`/`eval` pair); those libraries are not part of the
source, so following the specification they are modelled by one canonical
structured-text codec over lists of strings (`dumpsStrList` /
`decodeStrList`), which is deterministic, injective and parseable, and
whose parse fails on malformed text.
-/

namespace ChromaSpec

/-- Model of a Python scalar metadata value: the only value kinds the
store keeps beside a record (string, int, float, bool).  Floats are
modelled as rationals. -/
inductive Scalar
  | s (v : String)
  | i (v : Int)
  | f (v : Rat)
  | b (v : Bool)
  deriving DecidableEq, Repr

/-- Python truthiness of an optional scalar (`None`, `""`, `0`, `0.0` and
`False` are falsy), as used by the guards in `search_memory`. -/
def pyTruthy : Option Scalar → Bool
  | none => false
  | some (.s v) => v != ""
  | some (.i n) => n != 0
  | some (.f r) => r != 0
  | some (.b b) => b

/-- Python `str.lower()`, modelled character-wise. -/
def pyLower (s : String) : String := ⟨s.data.map Char.toLower⟩

/-! ## Decimal digit strings -/

/-- The decimal digit character of `d` (for `d < 10`; clamps above). -/
def digitChar : Nat → Char
  | 0 => '0' | 1 => '1' | 2 => '2' | 3 => '3' | 4 => '4'
  | 5 => '5' | 6 => '6' | 7 => '7' | 8 => '8' | _ => '9'

/-- Reads a digit string back as a natural number. -/
def charsToNat (ds : List Char) : Nat :=
  ds.foldl (fun a c => a * 10 + (c.toNat - 48)) 0

/-- Fuelled decimal printer (most significant digit first); the fuel is
an upper bound on the value, so it never runs out in `natToDigits`. -/
def natToDigitsAux : Nat → Nat → List Char
  | 0, _ => []
  | fuel + 1, n =>
    if n < 10 then [digitChar n]
    else natToDigitsAux fuel (n / 10) ++ [digitChar (n % 10)]

/-- Prints `n` in decimal. -/
def natToDigits (n : Nat) : List Char := natToDigitsAux (n + 1) n

/-- Splits a character list into its longest digit-only head and the
rest. -/
def takeDigits : List Char → List Char × List Char
  | [] => ([], [])
  | c :: cs =>
    if c.isDigit then
      let p := takeDigits cs
      (c :: p.1, p.2)
    else ([], c :: cs)

theorem digitChar_isDigit (d : Nat) (hd : d < 10) : (digitChar d).isDigit := by
  interval_cases d <;> decide

theorem digitChar_toNat (d : Nat) (hd : d < 10) : (digitChar d).toNat - 48 = d := by
  interval_cases d <;> decide

theorem charsToNat_append_digit (A : List Char) (c : Char) :
    charsToNat (A ++ [c]) = 10 * charsToNat A + (c.toNat - 48) := by
  simp [charsToNat, List.foldl_append, Nat.mul_comm]

theorem natToDigitsAux_succ (fuel n : Nat) :
    natToDigitsAux (fuel + 1) n =
      if n < 10 then [digitChar n]
      else natToDigitsAux fuel (n / 10) ++ [digitChar (n % 10)] := rfl

theorem natToDigitsAux_spec (fuel : Nat) :
    ∀ n, n ≤ fuel →
      charsToNat (natToDigitsAux (fuel + 1) n) = n ∧
      (∀ c ∈ natToDigitsAux (fuel + 1) n, c.isDigit) ∧
      natToDigitsAux (fuel + 1) n ≠ [] := by
  induction fuel with
  | zero =>
    intro n hn
    interval_cases n
    refine ⟨by decide, ?_, by decide⟩
    intro c hc
    simp [natToDigitsAux] at hc
    subst hc
    decide
  | succ F ih =>
    intro n hn
    by_cases h10 : n < 10
    · refine ⟨?_, ?_, ?_⟩
      · rw [natToDigitsAux_succ, if_pos h10]
        have := digitChar_toNat n h10
        simp [charsToNat]
        omega
      · intro c hc
        rw [natToDigitsAux_succ, if_pos h10] at hc
        simp at hc
        subst hc
        exact digitChar_isDigit n h10
      · rw [natToDigitsAux_succ, if_pos h10]
        simp
    · have hdiv : n / 10 ≤ F := by
        have : n / 10 < n := Nat.div_lt_self (by omega) (by omega)
        omega
      have ihd := ih (n / 10) hdiv
      refine ⟨?_, ?_, ?_⟩
      · rw [natToDigitsAux_succ, if_neg h10, charsToNat_append_digit, ihd.1,
          digitChar_toNat (n % 10) (Nat.mod_lt n (by omega))]
        omega
      · intro c hc
        rw [natToDigitsAux_succ, if_neg h10] at hc
        simp only [List.mem_append, List.mem_singleton] at hc
        rcases hc with hc | hc
        · exact ihd.2.1 c hc
        · subst hc
          exact digitChar_isDigit (n % 10) (Nat.mod_lt n (by omega))
      · rw [natToDigitsAux_succ, if_neg h10]
        simp

theorem charsToNat_natToDigits (n : Nat) : charsToNat (natToDigits n) = n :=
  (natToDigitsAux_spec n n (Nat.le_refl n)).1

theorem natToDigits_isDigit (n : Nat) : ∀ c ∈ natToDigits n, c.isDigit :=
  (natToDigitsAux_spec n n (Nat.le_refl n)).2.1

theorem natToDigits_ne_nil (n : Nat) : natToDigits n ≠ [] :=
  (natToDigitsAux_spec n n (Nat.le_refl n)).2.2

theorem takeDigits_append (ds : List Char) (hds : ∀ c ∈ ds, c.isDigit)
    (x : Char) (hx : ¬ x.isDigit) (r : List Char) :
    takeDigits (ds ++ x :: r) = (ds, x :: r) := by
  induction ds with
  | nil => simp [takeDigits, hx]
  | cons c cs ih =>
    have hc : c.isDigit := hds c (by simp)
    have := ih (fun d hd => hds d (by simp [hd]))
    simp [takeDigits, hc, this]

/-! ## Canonical structured text

Modelled from the spec: "Canonical structured text: a deterministic
string serialization of a structured value used for flat-store storage
and later parsing."  The external serializers (pydantic
`model_dump_json` for actions and grounding metadata, `json.dumps` for
custom metadata, and the `str(list(...))` / `eval` pair for the tool-id
collection) are not part of the source; structured values are modelled
as lists of strings, serialized with a tag and length-prefixed items so
that parsing is deterministic and fails on malformed text. -/

/-- Serializes the items of a structured value: each string is emitted
as `<decimal length>:<contents>`. -/
def encodeItems : List String → List Char
  | [] => []
  | s :: rest => natToDigits s.data.length ++ ':' :: (s.data ++ encodeItems rest)

/-- Canonical structured text of a structured value (always nonempty:
it starts with the tag `L`). -/
def dumpsStrList (xs : List String) : String := ⟨'L' :: encodeItems xs⟩

/-- Fuelled item parser: reads `<length>:<contents>` items until the
input is exhausted.  Fails on malformed input. -/
def decodeItemsAux : Nat → List Char → Option (List String)
  | _, [] => some []
  | 0, _ :: _ => none
  | fuel + 1, c :: cs =>
    match takeDigits (c :: cs) with
    | ([], _) => none
    | (ds, rest) =>
      match rest with
      | ':' :: r2 =>
        let n := charsToNat ds
        if n ≤ r2.length then
          match decodeItemsAux fuel (r2.drop n) with
          | some items => some ((⟨r2.take n⟩ : String) :: items)
          | none => none
        else none
      | _ => none

/-- Parses canonical structured text back into a structured value;
`none` models the hard parse failure of the external parsers on
malformed text. -/
def decodeStrList (t : String) : Option (List String) :=
  match t.data with
  | 'L' :: cs => decodeItemsAux (cs.length + 1) cs
  | _ => none

theorem decodeItemsAux_item (F : Nat) (s : String) (tail : List Char)
    (out : List String) (htail : decodeItemsAux F tail = some out) :
    decodeItemsAux (F + 1)
      (natToDigits s.data.length ++ ':' :: (s.data ++ tail)) =
      some (s :: out) := by
  have hne := natToDigits_ne_nil s.data.length
  have hcolon : ¬ (':' : Char).isDigit := by decide
  have htd := takeDigits_append (natToDigits s.data.length)
    (natToDigits_isDigit s.data.length) ':' hcolon (s.data ++ tail)
  obtain ⟨d, ds, hds⟩ : ∃ d ds, natToDigits s.data.length = d :: ds := by
    cases h : natToDigits s.data.length with
    | nil => exact absurd h hne
    | cons a l => exact ⟨a, l, rfl⟩
  rw [hds] at htd ⊢
  rw [List.cons_append]
  have hn : charsToNat (d :: ds) = s.data.length := by
    rw [← hds]; exact charsToNat_natToDigits s.data.length
  have htake : (s.data ++ tail).take s.data.length = s.data :=
    List.take_left s.data tail
  have hdrop : (s.data ++ tail).drop s.data.length = tail :=
    List.drop_left s.data tail
  have hle : s.data.length ≤ (s.data ++ tail).length := by
    simp [List.length_append]
  rw [List.cons_append] at htd
  simp only [decodeItemsAux, htd, hn, if_pos hle, hdrop, htake, htail]

theorem decodeItemsAux_encodeItems (xs : List String) :
    ∀ fuel, (encodeItems xs).length ≤ fuel →
      decodeItemsAux fuel (encodeItems xs) = some xs := by
  induction xs with
  | nil => intro fuel _; cases fuel <;> rfl
  | cons s rest ih =>
    intro fuel hfuel
    have hlen : (encodeItems (s :: rest)).length =
        (natToDigits s.data.length).length + 1 + s.data.length +
          (encodeItems rest).length := by
      simp only [encodeItems]
      simp [List.length_append]
      omega
    have hdlen : 1 ≤ (natToDigits s.data.length).length := by
      cases h : natToDigits s.data.length with
      | nil => exact absurd h (natToDigits_ne_nil _)
      | cons a l => simp
    obtain ⟨F, hF⟩ : ∃ F, fuel = F + 1 := by
      cases fuel with
      | zero => exfalso; rw [hlen] at hfuel; omega
      | succ F => exact ⟨F, rfl⟩
    subst hF
    have hrest_le : (encodeItems rest).length ≤ F := by
      rw [hlen] at hfuel; omega
    show decodeItemsAux (F + 1) (encodeItems (s :: rest)) = some (s :: rest)
    have hshape : encodeItems (s :: rest) =
        natToDigits s.data.length ++ ':' :: (s.data ++ encodeItems rest) := rfl
    rw [hshape]
    exact decodeItemsAux_item F s (encodeItems rest) rest (ih F hrest_le)

/-- Round trip of the canonical structured-text codec: parsing the
serialization of any structured value gives the value back. -/
theorem decodeStrList_dumpsStrList (xs : List String) :
    decodeStrList (dumpsStrList xs) = some xs := by
  show decodeItemsAux ((encodeItems xs).length + 1) (encodeItems xs) = some xs
  exact decodeItemsAux_encodeItems xs _ (Nat.le_succ _)

/-- The canonical structured text is never the empty string (so it is
always truthy when stored as a metadata value). -/
theorem dumpsStrList_ne_empty (xs : List String) : dumpsStrList xs ≠ "" := by
  intro h
  have : (dumpsStrList xs).data = ("" : String).data := by rw [h]
  simp [dumpsStrList] at this

/-! ## Python numeric casts

Models of the Python builtins `float(...)` and `int(...)` used as the
`type_caster` in `_parse_metadata_field_value`; both are external
builtins, so their string parsers are modelled from the spec ("parse as
floating point" / "parse as integer"): an optional sign, digits, and for
floats an optional fractional part.  `none` models the `ValueError` the
caller catches. -/

/-- Parses an unsigned decimal, optionally followed by `.` and a
fraction, into a rational. -/
def parseUnsignedFloat (cs : List Char) : Option Rat :=
  match takeDigits cs with
  | ([], _) => none
  | (ds, rest) =>
    match rest with
    | [] => some (charsToNat ds)
    | '.' :: fs =>
      match takeDigits fs with
      | ([], _) => none
      | (gs, []) =>
        some ((charsToNat ds : Rat) + (charsToNat gs : Rat) / ((10 : Rat) ^ gs.length))
      | (_, _ :: _) => none
    | _ :: _ => none

/-- Python `float(...)` applied to a string. -/
def parseFloatStr (s : String) : Option Rat :=
  match s.data with
  | '-' :: rest => (parseUnsignedFloat rest).map Neg.neg
  | cs => parseUnsignedFloat cs

/-- Python `int(...)` applied to a string. -/
def parseIntStr (s : String) : Option Int :=
  match s.data with
  | '-' :: rest =>
    match takeDigits rest with
    | ([], _) => none
    | (ds, []) => some (-(charsToNat ds : Int))
    | (_, _ :: _) => none
  | cs =>
    match takeDigits cs with
    | ([], _) => none
    | (ds, []) => some ((charsToNat ds : Int))
    | (_, _ :: _) => none

/-- Python `float(value)` on a scalar: floats and ints pass through,
bools become 0/1, strings are parsed (failure models `ValueError`). -/
def pyFloatCast : Scalar → Option Rat
  | .f r => some r
  | .i n => some (n : Rat)
  | .b bv => some (if bv then 1 else 0)
  | .s str => parseFloatStr str

/-- Python `int(value)` on a scalar: ints pass through, floats truncate
toward zero, bools become 0/1, strings are parsed. -/
def pyIntCast : Scalar → Option Int
  | .i n => some n
  | .f r => some (r.num.tdiv (r.den : Int))
  | .b bv => some (if bv then 1 else 0)
  | .s str => parseIntStr str

/-! ## The metadata field parser

`_parse_metadata_field_value` has three modes depending on its keyword
arguments; each mode is one definition.  All three first map the empty
string and a missing value (`None`) to `none`. -/

/-- `_parse_metadata_field_value(value)` with no caster and no JSON
load: empty string and missing become `None`, anything else passes
through. -/
def parseMetaRaw (v : Option Scalar) : Option Scalar :=
  match v with
  | none => none
  | some (.s str) => if str = "" then none else some (.s str)
  | some sc => some sc

/-- `_parse_metadata_field_value(value, type_caster=...)`: empty string
and missing become `None`; a cast failure (`ValueError`) is silently
recovered as `None`. -/
def parseMetaCast {α : Type} (cast : Scalar → Option α) (v : Option Scalar) :
    Option α :=
  match v with
  | none => none
  | some (.s str) => if str = "" then none else cast (.s str)
  | some sc => cast sc

/-- A decoded custom-metadata value: either a parsed structured value,
or a non-string scalar returned unchanged by the helper. -/
inductive PyObj
  | j (v : List String)
  | raw (sc : Scalar)
  deriving DecidableEq, Repr

/-- Search-time failures of the store: an index-layer failure, a hard
decode failure on a structured field, the `TypeError` raised when
sorting events whose timestamp degraded to `None`, and the `IndexError`
of a `[0]` access on an empty list. -/
inductive SearchErr
  | indexFailure (msg : String)
  | decodeFailure (field : String)
  | sortTypeError
  | pyIndexError
  deriving DecidableEq, Repr

/-- `_parse_metadata_field_value(value, is_json_load=True)`: empty
string and missing become `None`; a string is parsed as structured text
and a parse failure is a hard error (`ValueError` raised); a non-string
value is returned unchanged. -/
def parseMetaJson (v : Option Scalar) : Except SearchErr (Option PyObj) :=
  match v with
  | none => .ok none
  | some (.s str) =>
    if str = "" then .ok none
    else
      match decodeStrList str with
      | some items => .ok (some (.j items))
      | none => .error (.decodeFailure "custom_metadata")
  | some sc => .ok (some (.raw sc))

/-! ## Transcript events and sessions

Modelled from the spec (the `Event` and `Session` classes come from the
calling framework and are not part of the source): "identifier,
invocation identifier, author, timestamp (numeric, seconds), textual
content (zero or more text segments), optional branch label, optional
structured actions payload, optional set of long-running-tool
identifiers, optional structured grounding metadata,
partial/turn-complete/interrupted flags, optional error code/message,
optional arbitrary custom metadata".  Structured payloads are lists of
strings (see the canonical structured-text codec above); content is a
list of parts, each with optional text. -/

structure Event where
  id : String
  invocationId : String
  author : String
  timestamp : Rat
  content : Option (List (Option String))
  branch : Option String
  actions : Option (List String)
  longRunningToolIds : Option (List String)
  groundingMetadata : Option (List String)
  partialFlag : Option Bool
  turnComplete : Option Bool
  interrupted : Option Bool
  errorCode : Option Int
  errorMessage : Option String
  customMetadata : Option (List String)
  deriving DecidableEq, Repr

structure Session where
  appName : String
  userId : String
  id : String
  events : List Event
  deriving DecidableEq, Repr

/-- The flat metadata record stored beside a document.  Every field is
an optional scalar: `none` models a key missing from the stored
mapping (the encoder always writes every key, so `none` only arises
from external corruption). -/
structure Metadata where
  sessionId : Option Scalar := none
  eventId : Option Scalar := none
  invocationId : Option Scalar := none
  author : Option Scalar := none
  timestamp : Option Scalar := none
  branch : Option Scalar := none
  actions : Option Scalar := none
  longRunningToolIds : Option Scalar := none
  groundingMetadata : Option Scalar := none
  partialFlag : Option Scalar := none
  turnComplete : Option Scalar := none
  errorCode : Option Scalar := none
  errorMessage : Option Scalar := none
  interrupted : Option Scalar := none
  customMetadata : Option Scalar := none
  deriving DecidableEq, Repr

/-- `_clean_metadata_value` restricted to the shapes that occur at its
call sites: `None` becomes the empty string and scalars pass through.
(The call sites that store structured payloads stringify them first —
`model_dump_json()` / `str(list(...))` — modelled by `dumpsStrList`, and
`json.dumps` for custom metadata; so the serializer branch of the
Python helper is realized at those call sites.) -/
def cleanMetadataValue (v : Option Scalar) : Scalar :=
  v.getD (.s "")

/-- The text parts collected at ingest: the lower-cased text of every
part whose text is truthy (present and nonempty). -/
def partsText (parts : List (Option String)) : List String :=
  parts.filterMap fun p =>
    match p with
    | some t => if t = "" then none else some (pyLower t)
    | none => none

/-- Python `" ".join(...)`. -/
def joinSpace : List String → String
  | [] => ""
  | [x] => x
  | x :: rest => x ++ " " ++ joinSpace rest

/-- The stored document of an event: the space-join of its lower-cased
text parts, or `none` when the event is skipped (no content, no parts,
or no truthy text). -/
def eventText (e : Event) : Option String :=
  match e.content with
  | none => none
  | some [] => none
  | some parts =>
    match partsText parts with
    | [] => none
    | tps => some (joinSpace tps)

/-- The long-running-tool-ids value stored at ingest:
`str(list(...)) if event.long_running_tool_ids else None` (an empty or
absent collection is falsy). -/
def encodeToolIds (o : Option (List String)) : Option Scalar :=
  match o with
  | some ids => if ids.isEmpty then none else some (.s (dumpsStrList ids))
  | none => none

/-- The flat metadata written for one stored event
(`add_session_to_memory`, the `metadatas=[{...}]` literal). -/
def encodeEventMetadata (sessionId : String) (e : Event) : Metadata where
  sessionId := some (cleanMetadataValue (some (.s sessionId)))
  eventId := some (cleanMetadataValue (some (.s e.id)))
  invocationId := some (cleanMetadataValue (some (.s e.invocationId)))
  author := some (cleanMetadataValue (some (.s e.author)))
  timestamp := some (cleanMetadataValue (some (.f e.timestamp)))
  branch := some (cleanMetadataValue (some (.s (e.branch.getD ""))))
  actions := some (cleanMetadataValue (e.actions.map fun a => .s (dumpsStrList a)))
  longRunningToolIds := some (cleanMetadataValue (encodeToolIds e.longRunningToolIds))
  groundingMetadata := some (cleanMetadataValue
    (e.groundingMetadata.map fun g => .s (dumpsStrList g)))
  partialFlag := some (cleanMetadataValue (e.partialFlag.map Scalar.b))
  turnComplete := some (cleanMetadataValue (e.turnComplete.map Scalar.b))
  errorCode := some (cleanMetadataValue (e.errorCode.map Scalar.i))
  errorMessage := some (cleanMetadataValue (e.errorMessage.map Scalar.s))
  interrupted := some (cleanMetadataValue (e.interrupted.map Scalar.b))
  customMetadata := some (cleanMetadataValue
    (e.customMetadata.map fun c => .s (dumpsStrList c)))

/-! ## Collections and the client

The vector index is an external collaborator; following the spec it is
a key-value-with-vector-search abstraction: one collection per
namespace, each collection a keyed set of (document, metadata) records.
Modelled from the spec: `add` has upsert semantics ("re-ingesting a
session with the same ids overwrites matching records, never
duplicates"), realized as replace-in-place on an association list. -/

/-- One stored record: document text and flat metadata. -/
structure StoredRec where
  document : String
  metadata : Metadata
  deriving DecidableEq, Repr

/-- A collection: records keyed by `{sessionId}_{eventId}`, in insertion
order. -/
abbrev Collection : Type := List (String × StoredRec)

/-- The client: a mapping from namespace (`{appName}_{userId}`) to an
existing collection. -/
abbrev Client : Type := String → Option Collection

/-- `collection.add` (modelled from the spec as upsert): replace the
record in place when the id exists, append otherwise. -/
def colAdd (col : Collection) (id : String) (r : StoredRec) : Collection :=
  if (col.map Prod.fst).contains id then
    col.map fun p => if p.1 = id then (id, r) else p
  else col ++ [(id, r)]

/-- `get_or_create_collection`: the existing collection, or a fresh
empty one. -/
def getOrCreateCollection (cl : Client) (ns : String) : Collection :=
  (cl ns).getD []

/-- Stores a client's collection under a namespace. -/
def clientSet (cl : Client) (ns : String) (col : Collection) : Client :=
  fun n => if n = ns then some col else cl n

/-- `add_session_to_memory`: resolve or create the namespace collection
for `{app_name}_{user_id}`, then for each event with truthy text add
one record keyed `{session.id}_{event.id}` holding the lower-cased
joined text and the encoded metadata. -/
def addSessionToMemory (cl : Client) (s : Session) : Client :=
  let ns := s.appName ++ "_" ++ s.userId
  let col0 := getOrCreateCollection cl ns
  let col := s.events.foldl
    (fun c e =>
      match eventText e with
      | none => c
      | some txt =>
        colAdd c (s.id ++ "_" ++ e.id) ⟨txt, encodeEventMetadata s.id e⟩)
    col0
  clientSet cl ns col

/-! ## Decoding a hit back into an event -/

/-- The event reconstructed from a stored record by `search_memory`
(the `Event(...)` constructor call).  Field types reflect what the
decode path can actually produce: raw metadata scalars for fields read
without parsing, optional parsed values for cast fields. -/
structure DecodedEvent where
  id : String
  invocationId : Option Scalar
  author : Option Scalar
  timestamp : Option Rat
  contentText : String
  branch : Option Scalar
  actions : Option (List String)
  longRunningToolIds : Option (List String)
  groundingMetadata : Option (List String)
  partialFlag : Option Scalar
  turnComplete : Option Scalar
  errorCode : Option Int
  errorMessage : Option Scalar
  interrupted : Option Scalar
  customMetadata : Option PyObj
  deriving DecidableEq, Repr

/-- `EventActions.model_validate_json(m[field]) if m.get(field) else
None` (and the same shape for grounding metadata): a falsy value gives
`None`; a truthy string is parsed as structured text, failing hard on
malformed text; a truthy non-string raises inside the external
validator, also a hard failure. -/
def decodeStructuredField (field : String) (v : Option Scalar) :
    Except SearchErr (Option (List String)) :=
  if pyTruthy v then
    match v with
    | some (.s str) =>
      match decodeStrList str with
      | some items => .ok (some items)
      | none => .error (.decodeFailure field)
    | _ => .error (.decodeFailure field)
  else .ok none

/-- `set(eval(m["long_running_tool_ids"])) if m.get(...) else None`:
a falsy value gives `None`; a truthy string must parse back into a
list of strings (the `eval` of the stored list literal), any failure
raising hard; a truthy non-string raises inside `eval`. -/
def decodeToolIdsField (v : Option Scalar) :
    Except SearchErr (Option (List String)) :=
  if pyTruthy v then
    match v with
    | some (.s str) =>
      match decodeStrList str with
      | some items => .ok (some items)
      | none => .error (.decodeFailure "long_running_tool_ids")
    | _ => .error (.decodeFailure "long_running_tool_ids")
  else .ok none

/-- Rebuilds one event from a hit's metadata and document text (the
`Event(...)` construction inside `search_memory`); the event id is the
part of the record key after the last underscore.  Only the structured
fields can fail, and their failures propagate. -/
def decodeEvent (eid : String) (m : Metadata) (doc : String) :
    Except SearchErr DecodedEvent := do
  let acts ← decodeStructuredField "actions" m.actions
  let toolIds ← decodeToolIdsField m.longRunningToolIds
  let grounding ← decodeStructuredField "grounding_metadata" m.groundingMetadata
  let custom ← parseMetaJson m.customMetadata
  .ok
    { id := eid
      invocationId := m.invocationId
      author := m.author
      timestamp := parseMetaCast pyFloatCast m.timestamp
      contentText := doc
      branch := if pyTruthy m.branch then m.branch else none
      actions := acts
      longRunningToolIds := toolIds
      groundingMetadata := grounding
      partialFlag := parseMetaRaw m.partialFlag
      turnComplete := parseMetaRaw m.turnComplete
      errorCode := parseMetaCast pyIntCast m.errorCode
      errorMessage := m.errorMessage
      interrupted := parseMetaRaw m.interrupted
      customMetadata := custom }

/-! ## Query tokenization and the document filter -/

/-- Splits characters into maximal runs of non-whitespace (Python
`str.split()` with no argument); `acc` is the word being built. -/
def wordsAcc : List Char → List Char → List (List Char)
  | [], acc => if acc.isEmpty then [] else [acc]
  | c :: cs, acc =>
    if c.isWhitespace then
      if acc.isEmpty then wordsAcc cs [] else acc :: wordsAcc cs []
    else wordsAcc cs (acc ++ [c])

/-- The whitespace-delimited words of a character list. -/
def wordsWs (cs : List Char) : List (List Char) := wordsAcc cs []

/-- Keeps the first occurrence of each element (`acc` holds the output
built so far).  Models the deduplication performed by the Python `set`
(whose iteration order is modelled as first-occurrence order), and the
first-encounter order of dict keys. -/
def firstOccurAux : List String → List String → List String
  | [], acc => acc
  | x :: xs, acc => firstOccurAux xs (if acc.contains x then acc else acc ++ [x])

/-- The distinct elements of a list in first-occurrence order. -/
def firstOccur (l : List String) : List String := firstOccurAux l []

/-- `set(query.lower().split())`: the distinct lower-cased
whitespace-delimited keywords of the query. -/
def searchKeywords (query : String) : List String :=
  firstOccur ((wordsWs ((pyLower query).data)).map fun w => (⟨w⟩ : String))

/-- A Chroma `where_document` filter expression. -/
inductive WhereDoc
  | containsKw (k : String)
  | disjunction (xs : List WhereDoc)

/-- Builds the document filter from the keywords: no filter for zero
keywords, one contains-filter for one keyword, an OR of
contains-filters otherwise. -/
def buildWhereDocument (kws : List String) : Option WhereDoc :=
  match kws with
  | [] => none
  | [k] => some (.containsKw k)
  | ks => some (.disjunction (ks.map .containsKw))

/-- The arguments `search_memory` passes to `collection.query`. -/
structure QueryArgs where
  queryTexts : Option (List String)
  nResults : Nat
  whereDocument : Option WhereDoc

/-! ## The query response and result assembly -/

/-- One cell of the response's outer `ids` array: Chroma returns a list
of id lists (one per query text), but the code checks
`isinstance(results["ids"][0], list)`, so a non-list cell is
representable. -/
inductive IdsCell
  | lst (xs : List (Option String))
  | nonList

/-- The response of `collection.query`: parallel nested arrays.  `none`
on a field models a missing key (the code reads them with `.get` and a
default).  An inner id entry of `none` models a non-string id (the code
checks `isinstance(doc_id_str, str)`). -/
structure QueryResults where
  ids : Option (List IdsCell)
  metadatas : Option (List (List Metadata))
  documents : Option (List (List String))

/-- The guard on the response's ids (`results and results.get("ids")
and results["ids"] and isinstance(results["ids"][0], list) and
results["ids"][0]`): gives the first id list when every check passes. -/
def guardIds (r : QueryResults) : Option (List (Option String)) :=
  match r.ids with
  | none => none
  | some [] => none
  | some (.nonList :: _) => none
  | some (.lst xs :: _) => if xs.isEmpty then none else some xs

/-- Python `l[0]`: raises `IndexError` on an empty list. -/
def pyFirst {α : Type} (l : List α) : Except SearchErr α :=
  match l with
  | [] => .error .pyIndexError
  | a :: _ => .ok a

/-- `doc_id_str.rsplit('_', 1)` on the character level: splits at the
last underscore; `none` when there is no underscore. -/
def rsplitUnderscoreChars : List Char → Option (List Char × List Char)
  | [] => none
  | c :: cs =>
    match rsplitUnderscoreChars cs with
    | some (pre, post) => some (c :: pre, post)
    | none => if c = '_' then some ([], cs) else none

/-- `doc_id_str.rsplit('_', 1)` as (sessionId, eventId); `none` models
the malformed-key case (a single-element split). -/
def rsplitUnderscore (k : String) : Option (String × String) :=
  (rsplitUnderscoreChars k.data).map fun p => (⟨p.1⟩, ⟨p.2⟩)

/-- Whether a record key contains the session/event separator. -/
def hasUnderscore (k : String) : Bool := k.data.contains '_'

/-- One hit of the query response: id cell, metadata, document text. -/
abbrev Hit : Type := Option String × Metadata × String

/-- Zips the three parallel hit arrays (the code indexes them at a
common `i` after checking equal lengths). -/
def zipHits : List (Option String) → List Metadata → List String → List Hit
  | i :: is, m :: ms, d :: ds => (i, m, d) :: zipHits is ms ds
  | _, _, _ => []

/-- Appends a decoded event to its session's group, creating the group
at the end on first encounter (the insertion-ordered dict
`session_events`). -/
def accAppend (acc : List (String × List DecodedEvent)) (sid : String)
    (ev : DecodedEvent) : List (String × List DecodedEvent) :=
  if (acc.map Prod.fst).contains sid then
    acc.map fun g => if g.1 = sid then (g.1, g.2 ++ [ev]) else g
  else acc ++ [(sid, [ev])]

/-- The per-hit loop of `search_memory`: skip non-string ids and keys
without a separator, decode the rest (hard failures propagate), and
group decoded events by session id in first-encounter order. -/
def processHits : List Hit → List (String × List DecodedEvent) →
    Except SearchErr (List (String × List DecodedEvent))
  | [], acc => .ok acc
  | (cell, m, d) :: rest, acc =>
    match cell with
    | none => processHits rest acc
    | some key =>
      match rsplitUnderscore key with
      | none => processHits rest acc
      | some (sid, eid) =>
        match decodeEvent eid m d with
        | .error e => .error e
        | .ok ev => processHits rest (accAppend acc sid ev)

/-- The sort key used by `sorted(events, key=lambda e: e.timestamp)`;
the default only matters on the branch where no comparison happens. -/
def sortKey (e : DecodedEvent) : Rat := e.timestamp.getD 0

/-- Inserts an event after every event whose key is not greater
(Python's stable ascending order). -/
def insertByKey (x : DecodedEvent) : List DecodedEvent → List DecodedEvent
  | [] => [x]
  | y :: ys => if sortKey y ≤ sortKey x then y :: insertByKey x ys else x :: y :: ys

/-- Stable ascending sort by timestamp key. -/
def sortByKey (l : List DecodedEvent) : List DecodedEvent :=
  l.foldl (fun acc x => insertByKey x acc) []

/-- Python `sorted(events, key=lambda e: e.timestamp)`: when the group
has at least two events every timestamp key takes part in a comparison,
so a `None` timestamp raises `TypeError`; otherwise the result is the
stable ascending order. -/
def pySortedByTimestamp (evts : List DecodedEvent) :
    Except SearchErr (List DecodedEvent) :=
  if evts.length ≤ 1 then .ok evts
  else if evts.all fun e => e.timestamp.isSome then .ok (sortByKey evts)
  else .error .sortTypeError

/-- The final loop of `search_memory`: one `MemoryResult` per group, in
group order, each with its events sorted by timestamp. -/
structure MemoryResult where
  sessionId : String
  events : List DecodedEvent
  deriving DecidableEq, Repr

structure SearchMemoryResponse where
  memories : List MemoryResult
  deriving DecidableEq, Repr

/-- Sorts each group's events, preserving group order; a sort failure
aborts the loop. -/
def sortGroups : List (String × List DecodedEvent) →
    Except SearchErr (List MemoryResult)
  | [] => .ok []
  | (sid, evts) :: rest => do
    let sorted ← pySortedByTimestamp evts
    let more ← sortGroups rest
    .ok (⟨sid, sorted⟩ :: more)

/-- The result-assembly half of `search_memory`: the ids guard, the
`[0]` accesses with their `[[]]` defaults, the parallel-length check,
the per-hit loop and the group-sorting loop. -/
def assembleSearchResults (r : QueryResults) :
    Except SearchErr SearchMemoryResponse :=
  match guardIds r with
  | none => .ok ⟨[]⟩
  | some docIds => do
    let ms ← pyFirst (r.metadatas.getD [[]])
    let ds ← pyFirst (r.documents.getD [[]])
    if docIds.length = ms.length ∧ ms.length = ds.length then do
      let groups ← processHits (zipHits docIds ms ds) []
      let mems ← sortGroups groups
      .ok ⟨mems⟩
    else .ok ⟨[]⟩

/-- Default of the `top_k` constructor argument. -/
def defaultTopK : Nat := 10

/-- The arguments of the one hybrid `collection.query` call:
similarity over the query text (`None` when the query is empty),
bounded by `top_k`, constrained by the keyword filter. -/
def searchQueryArgs (query : String) (topK : Nat) : QueryArgs where
  queryTexts := if query = "" then none else some [query]
  nResults := topK
  whereDocument := buildWhereDocument (searchKeywords query)

/-- `search_memory`: resolve the namespace collection (any lookup
failure yields an empty response), build the keyword filter, issue one
hybrid query against the external index (`exec`), and assemble the
results.  The client is returned unchanged: the search path never
creates a collection. -/
def searchMemory (cl : Client) (appName userId query : String) (topK : Nat)
    (exec : Collection → QueryArgs → Except String QueryResults) :
    Client × Except SearchErr SearchMemoryResponse :=
  match cl (appName ++ "_" ++ userId) with
  | none => (cl, .ok ⟨[]⟩)
  | some col =>
    match exec col (searchQueryArgs query topK) with
    | .error e => (cl, .error (.indexFailure e))
    | .ok r => (cl, assembleSearchResults r)

/-! ## Lemmas: tokenization -/

theorem wordsAcc_spec :
    ∀ cs acc, (∀ c ∈ acc, c.isWhitespace = false) →
    ∀ w ∈ wordsAcc cs acc,
      w ≠ [] ∧ ∀ c ∈ w, c.isWhitespace = false ∧ (c ∈ acc ∨ c ∈ cs) := by
  intro cs
  induction cs with
  | nil =>
    intro acc hacc w hw
    by_cases he : acc.isEmpty
    · simp [wordsAcc, he] at hw
    · simp [wordsAcc, he] at hw
      subst hw
      refine ⟨by simpa using he, fun c hc => ⟨hacc c hc, Or.inl hc⟩⟩
  | cons c cs ih =>
    intro acc hacc w hw
    by_cases hws : c.isWhitespace
    · by_cases he : acc.isEmpty
      · rw [wordsAcc, if_pos hws, if_pos he] at hw
        obtain ⟨hne, hch⟩ := ih [] (by simp) w hw
        exact ⟨hne, fun d hd => ⟨(hch d hd).1, by
          rcases (hch d hd).2 with h | h
          · simp at h
          · exact Or.inr (by simp [h])⟩⟩
      · rw [wordsAcc, if_pos hws, if_neg he] at hw
        rcases List.mem_cons.mp hw with hw | hw
        · subst hw
          exact ⟨by simpa using he, fun d hd => ⟨hacc d hd, Or.inl hd⟩⟩
        · obtain ⟨hne, hch⟩ := ih [] (by simp) w hw
          exact ⟨hne, fun d hd => ⟨(hch d hd).1, by
            rcases (hch d hd).2 with h | h
            · simp at h
            · exact Or.inr (by simp [h])⟩⟩
    · rw [wordsAcc, if_neg hws] at hw
      have hacc' : ∀ d ∈ acc ++ [c], d.isWhitespace = false := by
        intro d hd
        rcases List.mem_append.mp hd with h | h
        · exact hacc d h
        · simp at h
          subst h
          simpa using hws
      obtain ⟨hne, hch⟩ := ih (acc ++ [c]) hacc' w hw
      refine ⟨hne, fun d hd => ⟨(hch d hd).1, ?_⟩⟩
      rcases (hch d hd).2 with h | h
      · rcases List.mem_append.mp h with h | h
        · exact Or.inl h
        · simp at h
          subst h
          exact Or.inr (by simp)
      · exact Or.inr (by simp [h])

theorem wordsWs_spec (cs : List Char) :
    ∀ w ∈ wordsWs cs, w ≠ [] ∧ ∀ c ∈ w, c.isWhitespace = false ∧ c ∈ cs := by
  intro w hw
  obtain ⟨hne, hch⟩ := wordsAcc_spec cs [] (by simp) w hw
  exact ⟨hne, fun c hc => ⟨(hch c hc).1, by
    rcases (hch c hc).2 with h | h
    · simp at h
    · exact h⟩⟩

/-! ## Lemmas: first-occurrence deduplication -/

theorem firstOccurAux_mem :
    ∀ l acc x, x ∈ firstOccurAux l acc ↔ x ∈ acc ∨ x ∈ l := by
  intro l
  induction l with
  | nil => intro acc x; simp [firstOccurAux]
  | cons y ys ih =>
    intro acc x
    rw [firstOccurAux]
    by_cases hy : acc.contains y
    · rw [if_pos hy, ih]
      have : y ∈ acc := by simpa using hy
      constructor
      · rintro (h | h)
        · exact Or.inl h
        · exact Or.inr (by simp [h])
      · rintro (h | h)
        · exact Or.inl h
        · rcases List.mem_cons.mp h with h | h
          · exact Or.inl (h ▸ this)
          · exact Or.inr h
    · rw [if_neg hy, ih]
      constructor
      · rintro (h | h)
        · rcases List.mem_append.mp h with h | h
          · exact Or.inl h
          · simp at h
            exact Or.inr (by simp [h])
        · exact Or.inr (by simp [h])
      · rintro (h | h)
        · exact Or.inl (List.mem_append.mpr (Or.inl h))
        · rcases List.mem_cons.mp h with h | h
          · exact Or.inl (List.mem_append.mpr (Or.inr (by simp [h])))
          · exact Or.inr h

theorem firstOccurAux_nodup :
    ∀ l acc, acc.Nodup → (firstOccurAux l acc).Nodup := by
  intro l
  induction l with
  | nil => intro acc h; exact h
  | cons y ys ih =>
    intro acc h
    rw [firstOccurAux]
    by_cases hy : acc.contains y
    · rw [if_pos hy]; exact ih acc h
    · rw [if_neg hy]
      refine ih _ ?_
      have : y ∉ acc := by simpa using hy
      simp [List.nodup_append, h, this]

theorem firstOccur_mem (l : List String) (x : String) :
    x ∈ firstOccur l ↔ x ∈ l := by
  rw [firstOccur, firstOccurAux_mem]
  simp

theorem firstOccur_nodup (l : List String) : (firstOccur l).Nodup :=
  firstOccurAux_nodup l [] (by simp)

/-! ## Lemmas: key splitting -/

theorem rsplitUnderscoreChars_eq_none (cs : List Char) (h : '_' ∉ cs) :
    rsplitUnderscoreChars cs = none := by
  induction cs with
  | nil => rfl
  | cons c cs ih =>
    have hc : c ≠ '_' := fun hc => h (by simp [hc])
    have hcs : '_' ∉ cs := fun hm => h (by simp [hm])
    rw [rsplitUnderscoreChars, ih hcs]
    simp only [if_neg (fun hh : c = '_' => hc hh)]

theorem rsplitUnderscoreChars_isSome (cs : List Char) (h : '_' ∈ cs) :
    (rsplitUnderscoreChars cs).isSome := by
  induction cs with
  | nil => simp at h
  | cons c cs ih =>
    rw [rsplitUnderscoreChars]
    cases hh : rsplitUnderscoreChars cs with
    | some p => simp
    | none =>
      rcases List.mem_cons.mp h with hc | hc
      · simp [← hc]
      · have := ih hc
        rw [hh] at this
        simp at this

theorem rsplitUnderscoreChars_none_iff (cs : List Char) :
    rsplitUnderscoreChars cs = none ↔ '_' ∉ cs := by
  constructor
  · intro h hm
    have := rsplitUnderscoreChars_isSome cs hm
    rw [h] at this
    simp at this
  · exact rsplitUnderscoreChars_eq_none cs

theorem rsplitUnderscoreChars_some (cs : List Char) :
    ∀ p q, rsplitUnderscoreChars cs = some (p, q) →
      cs = p ++ '_' :: q ∧ '_' ∉ q := by
  induction cs with
  | nil => intro p q h; simp [rsplitUnderscoreChars] at h
  | cons c cs ih =>
    intro p q h
    rw [rsplitUnderscoreChars] at h
    cases hh : rsplitUnderscoreChars cs with
    | some pr =>
      rw [hh] at h
      obtain ⟨hp, hq⟩ : c :: pr.1 = p ∧ pr.2 = q := by
        have := Option.some.inj h
        exact ⟨congrArg Prod.fst this, congrArg Prod.snd this⟩
      obtain ⟨hcs, hnq⟩ := ih pr.1 pr.2 (by rw [hh])
      subst hq
      refine ⟨?_, hnq⟩
      rw [← hp, hcs]
      simp
    | none =>
      rw [hh] at h
      by_cases hc : c = '_'
      · rw [if_pos hc] at h
        have := Option.some.inj h
        obtain ⟨hp, hq⟩ : ([] : List Char) = p ∧ cs = q :=
          ⟨congrArg Prod.fst this, congrArg Prod.snd this⟩
        subst hc
        rw [← hp, ← hq]
        exact ⟨by simp, (rsplitUnderscoreChars_none_iff cs).mp hh⟩
      · rw [if_neg hc] at h
        exact absurd h (by simp)

theorem rsplitUnderscore_none_iff (k : String) :
    rsplitUnderscore k = none ↔ hasUnderscore k = false := by
  rw [rsplitUnderscore, hasUnderscore]
  cases h : rsplitUnderscoreChars k.data with
  | none => simp [(rsplitUnderscoreChars_none_iff k.data).mp h]
  | some p =>
    have := rsplitUnderscoreChars_some k.data p.1 p.2 (by rw [h])
    simp [this.1]

theorem rsplitUnderscore_some (k sid eid : String)
    (h : rsplitUnderscore k = some (sid, eid)) :
    k = sid ++ "_" ++ eid ∧ hasUnderscore eid = false := by
  rw [rsplitUnderscore] at h
  cases hh : rsplitUnderscoreChars k.data with
  | none => rw [hh] at h; exact absurd h (by simp)
  | some p =>
    rw [hh] at h
    have h2 : ((⟨p.1⟩ : String), (⟨p.2⟩ : String)) = (sid, eid) := by
      simpa using h
    have hse : (⟨p.1⟩ : String) = sid ∧ (⟨p.2⟩ : String) = eid :=
      ⟨congrArg Prod.fst h2, congrArg Prod.snd h2⟩
    obtain ⟨hcs, hnq⟩ := rsplitUnderscoreChars_some k.data p.1 p.2 (by rw [hh])
    constructor
    · apply String.ext
      rw [hcs, ← hse.1, ← hse.2]
      cases sid
      simp
    · rw [hasUnderscore, ← hse.2]
      simpa using hnq

/-! ## Claim theorems -/

/-- Claim C7: for every query string, search tokenizes it into a set of
lower-cased whitespace-delimited keywords and builds the document
filter as: no filter when there are zero keywords; a single
contains-filter when there is exactly one keyword; an OR of
contains-filters over all keywords when there are more than one. -/
theorem claimC7 (query : String) :
    (buildWhereDocument (searchKeywords query) = none ↔
      searchKeywords query = []) ∧
    (∀ k, searchKeywords query = [k] →
      buildWhereDocument (searchKeywords query) = some (.containsKw k)) ∧
    (2 ≤ (searchKeywords query).length →
      buildWhereDocument (searchKeywords query) =
        some (.disjunction ((searchKeywords query).map .containsKw))) ∧
    (searchKeywords query).Nodup ∧
    (∀ k ∈ searchKeywords query, k ≠ "" ∧
      ∀ c ∈ k.data, c.isWhitespace = false ∧ c ∈ (pyLower query).data) := by
  refine ⟨?_, ?_, ?_, firstOccur_nodup _, ?_⟩
  · cases h : searchKeywords query with
    | nil => simp [buildWhereDocument]
    | cons a l =>
      cases l with
      | nil => simp [buildWhereDocument]
      | cons b l2 => simp [buildWhereDocument]
  · intro k hk
    rw [hk]
    rfl
  · intro hlen
    cases h : searchKeywords query with
    | nil => rw [h] at hlen; simp at hlen
    | cons a l =>
      cases l with
      | nil => rw [h] at hlen; simp at hlen
      | cons b l2 => simp [buildWhereDocument]
  · intro k hk
    rw [searchKeywords, firstOccur_mem] at hk
    obtain ⟨w, hw, hwk⟩ := List.mem_map.mp hk
    obtain ⟨hne, hch⟩ := wordsWs_spec _ w hw
    subst hwk
    constructor
    · intro h
      apply hne
      have : (⟨w⟩ : String).data = ("" : String).data := by rw [h]
      simpa using this
    · intro c hc
      exact hch c hc

/-- Claim C9: each hit's key is split on the last underscore into
(sessionId, eventId); a hit whose key contains no separator is skipped
and processing of the remaining hits continues unchanged. -/
theorem claimC9 (key : String) :
    (∀ sid eid, rsplitUnderscore key = some (sid, eid) →
      key = sid ++ "_" ++ eid ∧ hasUnderscore eid = false) ∧
    (hasUnderscore key = false →
      ∀ m d rest acc,
        processHits ((some key, m, d) :: rest) acc = processHits rest acc) := by
  constructor
  · intro sid eid h
    exact rsplitUnderscore_some key sid eid h
  · intro hu m d rest acc
    rw [processHits, (rsplitUnderscore_none_iff key).mpr hu]

/-- Claim C9 witness: a hit with the separator-free key "abc" is
skipped and the (here empty) remainder is processed as if the hit were
absent. -/
theorem claimC9_witness :
    processHits [(some "abc", ({} : Metadata), "doc")] [] =
      processHits [] [] :=
  (claimC9 "abc").2 (by decide) ({} : Metadata) "doc" [] []

/-- When every ids guard passes, `guardIds` yields the first id list. -/
theorem guardIds_eq (r : QueryResults) (xs : List (Option String))
    (tl : List IdsCell) (h : r.ids = some (.lst xs :: tl)) (hne : xs ≠ []) :
    guardIds r = some xs := by
  have hIsE : xs.isEmpty = false := by
    cases xs with
    | nil => exact absurd rfl hne
    | cons a l => rfl
  rw [guardIds, h]
  show (if xs.isEmpty = true then none else some xs) = some xs
  rw [hIsE]
  simp

/-- Unfolds `assembleSearchResults` past its guards: with a passing ids
guard and nonempty outer metadata/document arrays, assembly is the
length check followed by hit processing and group sorting. -/
theorem assembleSearchResults_eq (r : QueryResults)
    (docIds : List (Option String)) (hg : guardIds r = some docIds)
    (ms : List Metadata) (mtl : List (List Metadata))
    (hm : r.metadatas.getD [[]] = ms :: mtl)
    (ds : List String) (dtl : List (List String))
    (hd : r.documents.getD [[]] = ds :: dtl) :
    assembleSearchResults r =
      if docIds.length = ms.length ∧ ms.length = ds.length then do
        let groups ← processHits (zipHits docIds ms ds) []
        let mems ← sortGroups groups
        .ok ⟨mems⟩
      else .ok ⟨[]⟩ := by
  rw [assembleSearchResults, hg, hm, hd]
  rfl

/-- Claim C10: a query response with missing ids, an empty ids array, a
non-list or empty first ids cell, or parallel arrays of unequal
lengths yields an empty search result rather than an error. -/
theorem claimC10 (r : QueryResults)
    (h : r.ids = none ∨ r.ids = some [] ∨
      (∃ tl, r.ids = some (.nonList :: tl)) ∨
      (∃ tl, r.ids = some (.lst [] :: tl)) ∨
      (∃ xs tl ms mtl ds dtl, r.ids = some (.lst xs :: tl) ∧ xs ≠ [] ∧
        r.metadatas.getD [[]] = ms :: mtl ∧
        r.documents.getD [[]] = ds :: dtl ∧
        ¬(xs.length = ms.length ∧ ms.length = ds.length))) :
    assembleSearchResults r = .ok ⟨[]⟩ := by
  rcases h with h | h | ⟨tl, h⟩ | ⟨tl, h⟩ |
    ⟨xs, tl, ms, mtl, ds, dtl, h, hne, hm, hd, hlen⟩
  · rw [assembleSearchResults, guardIds, h]
  · rw [assembleSearchResults, guardIds, h]
  · rw [assembleSearchResults, guardIds, h]
  · rw [assembleSearchResults, guardIds, h]
    simp
  · rw [assembleSearchResults_eq r xs (guardIds_eq r xs tl h hne) ms mtl hm
      ds dtl hd, if_neg hlen]

/-- Claim C10 witness: a response with no ids at all assembles to the
empty result. -/
theorem claimC10_witness :
    assembleSearchResults ⟨none, none, none⟩ = .ok ⟨[]⟩ :=
  claimC10 ⟨none, none, none⟩ (Or.inl rfl)

/-- Claim C4: searching a namespace with no collection returns an empty
result (and leaves the client unchanged, creating nothing), while a
failure of the index query call propagates to the caller. -/
theorem claimC4 (cl : Client) (appName userId query : String) (topK : Nat)
    (exec : Collection → QueryArgs → Except String QueryResults) :
    (cl (appName ++ "_" ++ userId) = none →
      searchMemory cl appName userId query topK exec = (cl, .ok ⟨[]⟩)) ∧
    (∀ col msg, cl (appName ++ "_" ++ userId) = some col →
      exec col (searchQueryArgs query topK) = .error msg →
      searchMemory cl appName userId query topK exec =
        (cl, .error (.indexFailure msg))) := by
  constructor
  · intro h
    rw [searchMemory, h]
  · intro col msg hcol hexec
    rw [searchMemory, hcol]
    simp only [hexec]

/-- Claim C4 witness: on a client holding one (empty) collection for
"app_user", a search against the absent namespace "other_user" returns
the empty response, and a search against "app_user" with a failing
index propagates the failure. -/
theorem claimC4_witness :
    (searchMemory
        (fun ns => if ns = "app_user" then some [] else none)
        "other" "user" "q" 10 (fun _ _ => .error "down") =
      (fun ns => if ns = "app_user" then some [] else none, .ok ⟨[]⟩)) ∧
    (searchMemory
        (fun ns => if ns = "app_user" then some [] else none)
        "app" "user" "q" 10 (fun _ _ => .error "down") =
      (fun ns => if ns = "app_user" then some [] else none,
        .error (.indexFailure "down"))) :=
  ⟨(claimC4 (fun ns => if ns = "app_user" then some [] else none)
      "other" "user" "q" 10 (fun _ _ => .error "down")).1 (by decide),
   (claimC4 (fun ns => if ns = "app_user" then some [] else none)
      "app" "user" "q" 10 (fun _ _ => .error "down")).2 [] "down"
      (by decide) rfl⟩

/-! ## Lemmas: the encode/decode round trip -/

theorem rsplitUnderscoreChars_append (a b : List Char) (hb : '_' ∉ b) :
    rsplitUnderscoreChars (a ++ '_' :: b) = some (a, b) := by
  induction a with
  | nil =>
    rw [List.nil_append, rsplitUnderscoreChars,
      rsplitUnderscoreChars_eq_none b hb]
    simp
  | cons c cs ih =>
    rw [List.cons_append, rsplitUnderscoreChars, ih]

theorem rsplitUnderscore_append (sid eid : String)
    (h : hasUnderscore eid = false) :
    rsplitUnderscore (sid ++ "_" ++ eid) = some (sid, eid) := by
  have hdata : (sid ++ "_" ++ eid).data = sid.data ++ '_' :: eid.data := by
    cases sid
    cases eid
    simp
  have hb : '_' ∉ eid.data := by
    rw [hasUnderscore] at h
    simpa using h
  rw [rsplitUnderscore, hdata,
    rsplitUnderscoreChars_append sid.data eid.data hb]
  rfl

/-- The read path applied to one stored record: split the key, then
decode.  `none` is the defensive skip of a malformed key. -/
def decodeRecord (key : String) (m : Metadata) (doc : String) :
    Option (Except SearchErr (String × DecodedEvent)) :=
  match rsplitUnderscore key with
  | none => none
  | some (sid, eid) => some ((decodeEvent eid m doc).map fun d => (sid, d))

theorem pyTruthy_dumps (xs : List String) :
    pyTruthy (some (.s (dumpsStrList xs))) = true := by
  simp [pyTruthy]
  exact dumpsStrList_ne_empty xs

theorem exceptBind_ok {α β : Type} (a : α) (f : α → Except SearchErr β) :
    (Except.ok a : Except SearchErr α) >>= f = f a := rfl

theorem decodeStructuredField_encoded (field : String)
    (o : Option (List String)) :
    decodeStructuredField field
      (some (cleanMetadataValue (o.map fun a => Scalar.s (dumpsStrList a)))) =
      .ok o := by
  cases o with
  | none => rfl
  | some a =>
    show decodeStructuredField field (some (.s (dumpsStrList a))) = .ok (some a)
    simp [decodeStructuredField, pyTruthy_dumps, decodeStrList_dumpsStrList]

theorem decodeToolIdsField_encoded (o : Option (List String))
    (h : o ≠ some []) :
    decodeToolIdsField (some (cleanMetadataValue (encodeToolIds o))) = .ok o := by
  cases o with
  | none => rfl
  | some ids =>
    have hie : ids.isEmpty = false := by
      cases ids with
      | nil => exact absurd rfl h
      | cons a l => rfl
    rw [show encodeToolIds (some ids) =
      if ids.isEmpty then none else some (.s (dumpsStrList ids)) from rfl, hie]
    show decodeToolIdsField (some (.s (dumpsStrList ids))) = .ok (some ids)
    simp [decodeToolIdsField, pyTruthy_dumps, decodeStrList_dumpsStrList]

theorem parseMetaJson_encoded (o : Option (List String)) :
    parseMetaJson
      (some (cleanMetadataValue (o.map fun c => Scalar.s (dumpsStrList c)))) =
      .ok (o.map .j) := by
  cases o with
  | none => rfl
  | some c =>
    show parseMetaJson (some (.s (dumpsStrList c))) = .ok (some (.j c))
    rw [parseMetaJson, if_neg (dumpsStrList_ne_empty c),
      decodeStrList_dumpsStrList c]

theorem decodeEvent_encoded (sid eid : String) (e : Event) (doc : String)
    (hbr : e.branch ≠ some "") (hlt : e.longRunningToolIds ≠ some []) :
    decodeEvent eid (encodeEventMetadata sid e) doc =
      .ok
        { id := eid
          invocationId := some (.s e.invocationId)
          author := some (.s e.author)
          timestamp := some e.timestamp
          contentText := doc
          branch := e.branch.map .s
          actions := e.actions
          longRunningToolIds := e.longRunningToolIds
          groundingMetadata := e.groundingMetadata
          partialFlag := e.partialFlag.map .b
          turnComplete := e.turnComplete.map .b
          errorCode := e.errorCode
          errorMessage := some (.s (e.errorMessage.getD ""))
          interrupted := e.interrupted.map .b
          customMetadata := e.customMetadata.map .j } := by
  have hA : decodeStructuredField "actions"
      (encodeEventMetadata sid e).actions = .ok e.actions :=
    decodeStructuredField_encoded "actions" e.actions
  have hG : decodeStructuredField "grounding_metadata"
      (encodeEventMetadata sid e).groundingMetadata = .ok e.groundingMetadata :=
    decodeStructuredField_encoded "grounding_metadata" e.groundingMetadata
  have hT : decodeToolIdsField
      (encodeEventMetadata sid e).longRunningToolIds =
      .ok e.longRunningToolIds :=
    decodeToolIdsField_encoded e.longRunningToolIds hlt
  have hC : parseMetaJson (encodeEventMetadata sid e).customMetadata =
      .ok (e.customMetadata.map .j) :=
    parseMetaJson_encoded e.customMetadata
  have hinv : (encodeEventMetadata sid e).invocationId =
      some (.s e.invocationId) := rfl
  have hauth : (encodeEventMetadata sid e).author = some (.s e.author) := rfl
  have hts : parseMetaCast pyFloatCast (encodeEventMetadata sid e).timestamp =
      some e.timestamp := rfl
  have hbranch : (if pyTruthy (encodeEventMetadata sid e).branch then
      (encodeEventMetadata sid e).branch else none) = e.branch.map Scalar.s := by
    show (if pyTruthy (some (Scalar.s (e.branch.getD ""))) then
        some (Scalar.s (e.branch.getD "")) else none) = e.branch.map Scalar.s
    cases hb2 : e.branch with
    | none => rfl
    | some bv =>
      have hbv : ¬ bv = "" := fun hh => hbr (by rw [hb2, hh])
      simp [pyTruthy, hbv]
  have hpf : parseMetaRaw (encodeEventMetadata sid e).partialFlag =
      e.partialFlag.map Scalar.b := by
    show parseMetaRaw (some ((e.partialFlag.map Scalar.b).getD (.s ""))) =
      e.partialFlag.map Scalar.b
    cases e.partialFlag <;> rfl
  have htc : parseMetaRaw (encodeEventMetadata sid e).turnComplete =
      e.turnComplete.map Scalar.b := by
    show parseMetaRaw (some ((e.turnComplete.map Scalar.b).getD (.s ""))) =
      e.turnComplete.map Scalar.b
    cases e.turnComplete <;> rfl
  have hec : parseMetaCast pyIntCast (encodeEventMetadata sid e).errorCode =
      e.errorCode := by
    show parseMetaCast pyIntCast
      (some ((e.errorCode.map Scalar.i).getD (.s ""))) = e.errorCode
    cases e.errorCode <;> rfl
  have hem : (encodeEventMetadata sid e).errorMessage =
      some (.s (e.errorMessage.getD "")) := by
    show some ((e.errorMessage.map Scalar.s).getD (.s "")) =
      some (Scalar.s (e.errorMessage.getD ""))
    cases e.errorMessage <;> rfl
  have hint : parseMetaRaw (encodeEventMetadata sid e).interrupted =
      e.interrupted.map Scalar.b := by
    show parseMetaRaw (some ((e.interrupted.map Scalar.b).getD (.s ""))) =
      e.interrupted.map Scalar.b
    cases e.interrupted <;> rfl
  simp only [decodeEvent, hA, hT, hG, hC, exceptBind_ok, hinv, hauth, hts,
    hbranch, hpf, htc, hec, hem, hint]

theorem eventText_single (e : Event) (t : String)
    (hct : e.content = some [some t]) (ht : t ≠ "") :
    eventText e = some (pyLower t) := by
  rw [eventText, hct]
  show (match partsText [some t] with
    | [] => none
    | tps => some (joinSpace tps)) = some (pyLower t)
  rw [show partsText [some t] = [pyLower t] by simp [partsText, ht]]
  rfl

/-- Claim C1 (amended): provided the event id contains no underscore,
the content is a single nonempty text part, the branch (when present)
is nonempty, the long-running tool-id collection (when present) is
nonempty, and an error message is present, decoding the stored record
produced by encoding reproduces every field, with the content text
lower-cased.  (The excluded cases are collapsed by the codec: see the
counterexample.) -/
theorem claimC1 (sid : String) (e : Event) (t : String)
    (hct : e.content = some [some t]) (ht : t ≠ "")
    (hid : hasUnderscore e.id = false)
    (hbr : e.branch ≠ some "")
    (hlt : e.longRunningToolIds ≠ some [])
    (hem : e.errorMessage ≠ none) :
    eventText e = some (pyLower t) ∧
    decodeRecord (sid ++ "_" ++ e.id) (encodeEventMetadata sid e) (pyLower t) =
      some (.ok (sid,
        { id := e.id
          invocationId := some (.s e.invocationId)
          author := some (.s e.author)
          timestamp := some e.timestamp
          contentText := pyLower t
          branch := e.branch.map .s
          actions := e.actions
          longRunningToolIds := e.longRunningToolIds
          groundingMetadata := e.groundingMetadata
          partialFlag := e.partialFlag.map .b
          turnComplete := e.turnComplete.map .b
          errorCode := e.errorCode
          errorMessage := e.errorMessage.map .s
          interrupted := e.interrupted.map .b
          customMetadata := e.customMetadata.map .j })) := by
  refine ⟨eventText_single e t hct ht, ?_⟩
  obtain ⟨msg, hm⟩ : ∃ msg, e.errorMessage = some msg := by
    cases hmm : e.errorMessage with
    | none => exact absurd hmm hem
    | some m2 => exact ⟨m2, rfl⟩
  have hdec := decodeEvent_encoded sid e.id e (pyLower t) hbr hlt
  rw [decodeRecord, rsplitUnderscore_append sid e.id hid]
  simp [hdec, hm, Except.map]

/-- Concrete event used to instantiate the amended round-trip claim. -/
def eGood : Event where
  id := "e1"
  invocationId := "inv"
  author := "user"
  timestamp := 3
  content := some [some "Hi"]
  branch := some "b"
  actions := some ["a1", "a2"]
  longRunningToolIds := some ["t"]
  groundingMetadata := none
  partialFlag := some true
  turnComplete := none
  interrupted := some false
  errorCode := some 2
  errorMessage := some "msg"
  customMetadata := some ["c"]

/-- Claim C1 witness: the amended round trip at a concrete event. -/
theorem claimC1_witness :
    eventText eGood = some (pyLower "Hi") ∧
    decodeRecord ("sess" ++ "_" ++ eGood.id)
      (encodeEventMetadata "sess" eGood) (pyLower "Hi") =
      some (.ok ("sess",
        { id := eGood.id
          invocationId := some (.s eGood.invocationId)
          author := some (.s eGood.author)
          timestamp := some eGood.timestamp
          contentText := pyLower "Hi"
          branch := eGood.branch.map .s
          actions := eGood.actions
          longRunningToolIds := eGood.longRunningToolIds
          groundingMetadata := eGood.groundingMetadata
          partialFlag := eGood.partialFlag.map .b
          turnComplete := eGood.turnComplete.map .b
          errorCode := eGood.errorCode
          errorMessage := eGood.errorMessage.map .s
          interrupted := eGood.interrupted.map .b
          customMetadata := eGood.customMetadata.map .j })) :=
  claimC1 "sess" eGood "Hi" rfl (by decide) (by decide) (by decide) (by decide)
    (by decide)

/-- Concrete event refuting the round-trip claim as stated: its id
contains an underscore, its branch is the empty string, its tool-id
collection is present but empty, and its error message is absent. -/
def eBad : Event where
  id := "ev_1"
  invocationId := "inv"
  author := "user"
  timestamp := 1
  content := some [some "Hello"]
  branch := some ""
  actions := none
  longRunningToolIds := some []
  groundingMetadata := none
  partialFlag := none
  turnComplete := none
  interrupted := none
  errorCode := none
  errorMessage := none
  customMetadata := none

/-- What decoding `eBad`'s stored record actually produces. -/
def dBad : DecodedEvent where
  id := "1"
  invocationId := some (.s "inv")
  author := some (.s "user")
  timestamp := some 1
  contentText := "hello"
  branch := none
  actions := none
  longRunningToolIds := none
  groundingMetadata := none
  partialFlag := none
  turnComplete := none
  errorCode := none
  errorMessage := some (.s "")
  interrupted := none
  customMetadata := none

/-- Claim C1 counterexample: encoding then decoding `eBad` under
session "sess" does not reproduce its fields — the id "ev_1" is split
at its own underscore (decoded id "1", session "sess_ev"), the empty
branch and the empty tool-id collection decode as absent, and the
absent error message decodes as the empty string.  Only the content
text behaves as claimed. -/
theorem claimC1_counterexample :
    eBad.errorMessage = none ∧ eBad.branch = some "" ∧
    eBad.longRunningToolIds = some [] ∧ eBad.id = "ev_1" ∧
    eventText eBad = some "hello" ∧
    decodeRecord ("sess" ++ "_" ++ eBad.id) (encodeEventMetadata "sess" eBad)
      "hello" = some (.ok ("sess_ev", dBad)) ∧
    dBad.id = "1" ∧ dBad.errorMessage = some (.s "") ∧
    dBad.branch = none ∧ dBad.longRunningToolIds = none :=
  ⟨rfl, rfl, rfl, rfl, rfl, rfl, rfl, rfl, rfl, rfl⟩

/-- Claim C7 witness: the query "B a b" tokenizes to the two keywords
"b" and "a" (lower-cased, deduplicated), and its filter is the OR of
their contains-filters. -/
theorem claimC7_witness :
    buildWhereDocument (searchKeywords "B a b") =
      some (.disjunction ((searchKeywords "B a b").map .containsKw)) :=
  (claimC7 "B a b").2.2.1 (by decide)

/-- Well-formed stored metadata for session "s": all optional payloads
absent (empty-string markers), timestamp 1. -/
def mC2good : Metadata where
  sessionId := some (.s "s")
  eventId := some (.s "e2")
  invocationId := some (.s "inv")
  author := some (.s "user")
  timestamp := some (.f 1)
  branch := some (.s "")
  actions := some (.s "")
  longRunningToolIds := some (.s "")
  groundingMetadata := some (.s "")
  partialFlag := some (.s "")
  turnComplete := some (.s "")
  errorCode := some (.s "")
  errorMessage := some (.s "")
  interrupted := some (.s "")
  customMetadata := some (.s "")

/-- The same record with its timestamp text corrupted. -/
def mC2bad : Metadata := { mC2good with timestamp := some (.s "garbage") }

/-- A query response holding two hits of the same session, one with the
corrupted timestamp. -/
def rC2 : QueryResults where
  ids := some [.lst [some "s_e1", some "s_e2"]]
  metadatas := some [[mC2bad, mC2good]]
  documents := some [["d1", "d2"]]

/-- Claim C2, failing half (code bug): an unparsable timestamp or error
code does decode to `None` as claimed — but when the hit set holds two
events of one session and one timestamp degraded to `None`, the sort
key comparison raises, so the corruption does propagate an error to the
search caller, contradicting the claim. -/
theorem claimC2 :
    parseMetaCast pyFloatCast (some (.s "garbage")) = none ∧
    parseMetaCast pyIntCast (some (.s "garbage")) = none ∧
    assembleSearchResults rC2 = .error .sortTypeError :=
  ⟨rfl, rfl, rfl⟩

/-! ## Lemmas: ingest, upsert and duplicate freedom -/

/-- The keys of a collection, in storage order. -/
def colKeys (col : Collection) : List String := col.map Prod.fst

/-- Looks a record up by key (first match). -/
def colLookup : Collection → String → Option StoredRec
  | [], _ => none
  | (k2, r) :: rest, k => if k2 = k then some r else colLookup rest k

/-- Applies a list of writes in order. -/
def foldAdds (col : Collection) : List (String × StoredRec) → Collection
  | [] => col
  | (k, r) :: rest => foldAdds (colAdd col k r) rest

/-- The last record written under a key by a list of writes. -/
def lastWrite : List (String × StoredRec) → String → Option StoredRec
  | [], _ => none
  | (k2, r) :: rest, k =>
    match lastWrite rest k with
    | some r2 => some r2
    | none => if k2 = k then some r else none

/-- The (key, record) writes one ingest of a session performs, in event
order. -/
def ingestRecords (s : Session) : List (String × StoredRec) :=
  s.events.filterMap fun e =>
    (eventText e).map fun txt =>
      (s.id ++ "_" ++ e.id, ⟨txt, encodeEventMetadata s.id e⟩)

theorem colKeys_colAdd (col : Collection) (id : String) (r : StoredRec) :
    colKeys (colAdd col id r) =
      if (colKeys col).contains id then colKeys col else colKeys col ++ [id] := by
  rw [colAdd, colKeys]
  by_cases hc : (col.map Prod.fst).contains id
  · rw [if_pos hc, if_pos (by simpa [colKeys] using hc)]
    rw [List.map_map]
    apply List.map_congr_left
    intro p _
    by_cases hp : p.1 = id
    · simp [hp]
    · simp [hp]
  · rw [if_neg hc, if_neg (by simpa [colKeys] using hc)]
    simp [colKeys]

theorem mem_colKeys_colAdd (col : Collection) (id : String) (r : StoredRec)
    (x : String) :
    x ∈ colKeys (colAdd col id r) ↔ x ∈ colKeys col ∨ x = id := by
  rw [colKeys_colAdd]
  by_cases hc : (colKeys col).contains id
  · rw [if_pos hc]
    have hid : id ∈ colKeys col := by simpa using hc
    constructor
    · exact Or.inl
    · rintro (h | h)
      · exact h
      · exact h ▸ hid
  · rw [if_neg hc]
    simp

theorem nodup_colKeys_colAdd (col : Collection) (id : String) (r : StoredRec)
    (h : (colKeys col).Nodup) : (colKeys (colAdd col id r)).Nodup := by
  rw [colKeys_colAdd]
  by_cases hc : (colKeys col).contains id
  · rw [if_pos hc]; exact h
  · rw [if_neg hc]
    have : id ∉ colKeys col := by simpa using hc
    simp [List.nodup_append, h, this]

theorem colLookup_mapReplace_ne (rest : Collection) (id : String)
    (r : StoredRec) (k : String) (hk : k ≠ id) :
    colLookup (rest.map fun p => if p.1 = id then (id, r) else p) k =
      colLookup rest k := by
  induction rest with
  | nil => rfl
  | cons q qs ih =>
    obtain ⟨q1, q2⟩ := q
    simp only [List.map_cons]
    by_cases hq : q1 = id
    · rw [if_pos (show (q1, q2).1 = id from hq)]
      simp only [colLookup]
      rw [if_neg (show ¬ id = k from fun h => hk h.symm),
        if_neg (show ¬ q1 = k from fun h => hk (by rw [← h, hq])), ih]
    · rw [if_neg (show ¬ (q1, q2).1 = id from hq)]
      simp only [colLookup]
      by_cases hq1 : q1 = k
      · rw [if_pos hq1, if_pos hq1]
      · rw [if_neg hq1, if_neg hq1, ih]

theorem colLookup_mapReplace_eq (rest : Collection) (id : String)
    (r : StoredRec) (hmem : id ∈ rest.map Prod.fst) :
    colLookup (rest.map fun p => if p.1 = id then (id, r) else p) id =
      some r := by
  induction rest with
  | nil => simp at hmem
  | cons q qs ih =>
    obtain ⟨q1, q2⟩ := q
    simp only [List.map_cons]
    by_cases hq : q1 = id
    · rw [if_pos (show (q1, q2).1 = id from hq)]
      simp [colLookup]
    · rw [if_neg (show ¬ (q1, q2).1 = id from hq)]
      simp only [colLookup]
      rw [if_neg hq]
      apply ih
      rcases List.mem_map.mp hmem with ⟨p, hp, hpe⟩
      rcases List.mem_cons.mp hp with hp2 | hp2
      · exact absurd (by rw [hp2] at hpe; exact hpe) hq
      · exact List.mem_map.mpr ⟨p, hp2, hpe⟩

theorem colLookup_appendNew (col : Collection) (id : String) (r : StoredRec)
    (k : String) (hmem : id ∉ col.map Prod.fst) :
    colLookup (col ++ [(id, r)]) k =
      if k = id then some r else colLookup col k := by
  induction col with
  | nil =>
    rw [List.nil_append]
    simp only [colLookup]
    by_cases hk : k = id
    · rw [if_pos (show id = k from hk.symm), if_pos hk]
    · rw [if_neg (show ¬ id = k from fun h => hk h.symm), if_neg hk]
  | cons q qs ih =>
    obtain ⟨q1, q2⟩ := q
    have hq1 : q1 ≠ id := by
      intro h
      exact hmem (by simp [h])
    have hqs : id ∉ qs.map Prod.fst := by
      intro h
      exact hmem (by simp [h])
    rw [List.cons_append]
    simp only [colLookup]
    by_cases hq1k : q1 = k
    · have hki : ¬ k = id := fun h => hq1 (hq1k.trans h)
      rw [if_pos hq1k, if_neg hki, if_pos hq1k]
    · rw [if_neg hq1k, ih hqs, if_neg hq1k]

theorem colLookup_colAdd (col : Collection) (id : String) (r : StoredRec)
    (k : String) :
    colLookup (colAdd col id r) k = if k = id then some r else colLookup col k := by
  rw [colAdd]
  by_cases hc : (col.map Prod.fst).contains id
  · rw [if_pos hc]
    by_cases hk : k = id
    · subst hk
      rw [if_pos rfl]
      exact colLookup_mapReplace_eq col k r (by simpa using hc)
    · rw [if_neg hk]
      exact colLookup_mapReplace_ne col id r k hk
  · rw [if_neg hc]
    exact colLookup_appendNew col id r k (by simpa using hc)

theorem nodup_colKeys_foldAdds (l : List (String × StoredRec)) :
    ∀ col : Collection, (colKeys col).Nodup → (colKeys (foldAdds col l)).Nodup := by
  induction l with
  | nil => intro col h; exact h
  | cons p rest ih =>
    intro col h
    obtain ⟨k, r⟩ := p
    exact ih (colAdd col k r) (nodup_colKeys_colAdd col k r h)

theorem mem_colKeys_foldAdds (l : List (String × StoredRec)) :
    ∀ (col : Collection) (x : String),
      x ∈ colKeys (foldAdds col l) ↔ x ∈ colKeys col ∨ x ∈ l.map Prod.fst := by
  induction l with
  | nil => intro col x; simp [foldAdds]
  | cons p rest ih =>
    intro col x
    obtain ⟨k, r⟩ := p
    rw [foldAdds, ih, mem_colKeys_colAdd]
    simp [or_assoc]

theorem colKeys_foldAdds_noNew (l : List (String × StoredRec)) :
    ∀ col : Collection, (∀ k ∈ l.map Prod.fst, k ∈ colKeys col) →
      colKeys (foldAdds col l) = colKeys col := by
  induction l with
  | nil => intro col _; rfl
  | cons p rest ih =>
    intro col h
    obtain ⟨k, r⟩ := p
    have hk : k ∈ colKeys col := h k (by simp)
    have hkeys : colKeys (colAdd col k r) = colKeys col := by
      rw [colKeys_colAdd, if_pos (by simpa using hk)]
    rw [foldAdds, ih (colAdd col k r) (fun k2 hk2 => by
      rw [hkeys]
      exact h k2 (by simp [hk2])), hkeys]

theorem colLookup_foldAdds (l : List (String × StoredRec)) :
    ∀ (col : Collection) (k : String),
      colLookup (foldAdds col l) k =
        match lastWrite l k with
        | some r => some r
        | none => colLookup col k := by
  induction l with
  | nil => intro col k; rfl
  | cons p rest ih =>
    intro col k
    obtain ⟨k2, r⟩ := p
    rw [foldAdds, ih, lastWrite]
    cases lastWrite rest k with
    | some r2 => rfl
    | none =>
      rw [colLookup_colAdd]
      by_cases hk : k = k2
      · rw [if_pos hk, if_pos hk.symm]
      · rw [if_neg hk, if_neg (fun h : k2 = k => hk h.symm)]

/-- Replaying the same writes a second time changes no lookup. -/
theorem colLookup_foldAdds_twice (col : Collection)
    (l : List (String × StoredRec)) (k : String) :
    colLookup (foldAdds (foldAdds col l) l) k = colLookup (foldAdds col l) k := by
  rw [colLookup_foldAdds l (foldAdds col l) k]
  cases h : lastWrite l k with
  | some r => rw [colLookup_foldAdds l col k, h]
  | none => rfl

/-- The ingest fold of `add_session_to_memory` equals applying the
session's writes in order. -/
theorem addSession_foldAdds (events : List Event) (sid : String) :
    ∀ col : Collection,
      events.foldl
        (fun c e =>
          match eventText e with
          | none => c
          | some txt => colAdd c (sid ++ "_" ++ e.id) ⟨txt, encodeEventMetadata sid e⟩)
        col =
      foldAdds col (events.filterMap fun e =>
        (eventText e).map fun txt =>
          (sid ++ "_" ++ e.id, ⟨txt, encodeEventMetadata sid e⟩)) := by
  induction events with
  | nil => intro col; rfl
  | cons e rest ih =>
    intro col
    rw [List.foldl_cons, List.filterMap_cons]
    cases h : eventText e with
    | none =>
      rw [ih]
      rfl
    | some txt =>
      rw [ih]
      rfl

/-- Reading a namespace other than the one just written is unchanged. -/
theorem clientSet_ne (cl : Client) (ns0 : String) (col : Collection)
    (ns : String) (h : ns ≠ ns0) : clientSet cl ns0 col ns = cl ns :=
  if_neg h

/-- A client is well formed when no collection holds two records under
one key. -/
def ClientWF (cl : Client) : Prop :=
  ∀ ns col, cl ns = some col → (colKeys col).Nodup

/-- Claim C3: re-ingesting a session overwrites the matching records in
place: the store stays free of duplicate keys, and a second ingest of
the same session changes neither any collection's key sequence nor any
record that can be looked up. -/
theorem claimC3 (cl : Client) (s : Session) (hwf : ClientWF cl) :
    ClientWF (addSessionToMemory cl s) ∧
    (∀ ns, (addSessionToMemory (addSessionToMemory cl s) s ns).map colKeys =
      (addSessionToMemory cl s ns).map colKeys) ∧
    (∀ ns k,
      (addSessionToMemory (addSessionToMemory cl s) s ns).map
        (fun col => colLookup col k) =
      (addSessionToMemory cl s ns).map (fun col => colLookup col k)) := by
  have hfold := addSession_foldAdds s.events s.id
  have hcol0 : (colKeys (getOrCreateCollection cl (s.appName ++ "_" ++ s.userId))).Nodup := by
    rw [getOrCreateCollection]
    cases hc : cl (s.appName ++ "_" ++ s.userId) with
    | none => simp [colKeys]
    | some c => simpa using hwf _ c hc
  have heq1 : addSessionToMemory cl s =
      clientSet cl (s.appName ++ "_" ++ s.userId)
        (foldAdds (getOrCreateCollection cl (s.appName ++ "_" ++ s.userId))
          (ingestRecords s)) := by
    rw [addSessionToMemory, hfold]
    rfl
  have hget1 : addSessionToMemory cl s (s.appName ++ "_" ++ s.userId) =
      some (foldAdds (getOrCreateCollection cl (s.appName ++ "_" ++ s.userId))
        (ingestRecords s)) := by
    rw [heq1, clientSet, if_pos rfl]
  have heq2 : addSessionToMemory (addSessionToMemory cl s) s =
      clientSet (addSessionToMemory cl s) (s.appName ++ "_" ++ s.userId)
        (foldAdds
          (foldAdds (getOrCreateCollection cl (s.appName ++ "_" ++ s.userId))
            (ingestRecords s))
          (ingestRecords s)) := by
    rw [addSessionToMemory, hfold,
      show getOrCreateCollection (addSessionToMemory cl s)
          (s.appName ++ "_" ++ s.userId) =
        foldAdds (getOrCreateCollection cl (s.appName ++ "_" ++ s.userId))
          (ingestRecords s) from by
        rw [getOrCreateCollection, hget1]
        rfl]
    rfl
  refine ⟨?_, ?_, ?_⟩
  · intro ns col hcol
    rw [heq1, clientSet] at hcol
    by_cases hns : ns = s.appName ++ "_" ++ s.userId
    · rw [if_pos hns] at hcol
      have := Option.some.inj hcol
      rw [← this]
      exact nodup_colKeys_foldAdds (ingestRecords s) _ hcol0
    · rw [if_neg hns] at hcol
      exact hwf ns col hcol
  · intro ns
    by_cases hns : ns = s.appName ++ "_" ++ s.userId
    · subst hns
      rw [heq2, clientSet, if_pos rfl, hget1]
      have hnn := colKeys_foldAdds_noNew (ingestRecords s)
        (foldAdds (getOrCreateCollection cl (s.appName ++ "_" ++ s.userId))
          (ingestRecords s))
        (fun k hk => (mem_colKeys_foldAdds (ingestRecords s) _ k).mpr (Or.inr hk))
      simp [hnn]
    · rw [heq2, clientSet_ne _ _ _ _ hns]
  · intro ns k
    by_cases hns : ns = s.appName ++ "_" ++ s.userId
    · subst hns
      rw [heq2, clientSet, if_pos rfl, hget1]
      have hlk := colLookup_foldAdds_twice
        (getOrCreateCollection cl (s.appName ++ "_" ++ s.userId))
        (ingestRecords s) k
      simp [hlk]
    · rw [heq2, clientSet_ne _ _ _ _ hns]

/-- The empty client: no collection exists. -/
def emptyClient : Client := fun _ => none

/-- A concrete one-event session for the ingest witness. -/
def sC3 : Session where
  appName := "app"
  userId := "user"
  id := "sid"
  events := [{ eGood with id := "e1" }]

/-- Claim C3 witness: ingesting `sC3` twice into the empty client gives
the same key sequence and the same record under the key "sid_e1" as
ingesting it once. -/
theorem claimC3_witness :
    (addSessionToMemory (addSessionToMemory emptyClient sC3) sC3
        "app_user").map colKeys =
      (addSessionToMemory emptyClient sC3 "app_user").map colKeys ∧
    (addSessionToMemory (addSessionToMemory emptyClient sC3) sC3
        "app_user").map (fun col => colLookup col "sid_e1") =
      (addSessionToMemory emptyClient sC3 "app_user").map
        (fun col => colLookup col "sid_e1") :=
  ⟨(claimC3 emptyClient sC3 (fun _ _ h => nomatch h)).2.1 "app_user",
   (claimC3 emptyClient sC3 (fun _ _ h => nomatch h)).2.2 "app_user" "sid_e1"⟩

/-! ## Lemmas: the stable timestamp sort -/

/-- Ascending order on decoded events by sort key. -/
def tsLe (a b : DecodedEvent) : Prop := sortKey a ≤ sortKey b

theorem mem_insertByKey (x : DecodedEvent) (l : List DecodedEvent)
    (z : DecodedEvent) : z ∈ insertByKey x l ↔ z = x ∨ z ∈ l := by
  induction l with
  | nil => simp [insertByKey]
  | cons y ys ih =>
    rw [insertByKey]
    by_cases h : sortKey y ≤ sortKey x
    · rw [if_pos h]
      simp only [List.mem_cons, ih]
      tauto
    · rw [if_neg h]
      simp only [List.mem_cons]

theorem pairwise_insertByKey (x : DecodedEvent) (l : List DecodedEvent)
    (h : List.Pairwise tsLe l) : List.Pairwise tsLe (insertByKey x l) := by
  induction l with
  | nil => simp [insertByKey, List.pairwise_singleton]
  | cons y ys ih =>
    rw [insertByKey]
    rcases List.pairwise_cons.mp h with ⟨hy, hys⟩
    by_cases hle : sortKey y ≤ sortKey x
    · rw [if_pos hle]
      refine List.pairwise_cons.mpr ⟨?_, ih hys⟩
      intro z hz
      rcases (mem_insertByKey x ys z).mp hz with hz | hz
      · rw [hz]; exact hle
      · exact hy z hz
    · rw [if_neg hle]
      have hxy : tsLe x y := le_of_lt (lt_of_not_le hle)
      refine List.pairwise_cons.mpr ⟨?_, h⟩
      intro z hz
      rcases List.mem_cons.mp hz with hz | hz
      · rw [hz]; exact hxy
      · exact le_trans hxy (hy z hz)

theorem pairwise_foldl_insert (l : List DecodedEvent) :
    ∀ acc, List.Pairwise tsLe acc →
      List.Pairwise tsLe (l.foldl (fun a x => insertByKey x a) acc) := by
  induction l with
  | nil => intro acc h; exact h
  | cons x xs ih =>
    intro acc h
    rw [List.foldl_cons]
    exact ih (insertByKey x acc) (pairwise_insertByKey x acc h)

theorem pairwise_sortByKey (l : List DecodedEvent) :
    List.Pairwise tsLe (sortByKey l) :=
  pairwise_foldl_insert l [] List.Pairwise.nil

theorem filter_insertByKey (x : DecodedEvent) (l : List DecodedEvent)
    (t : Rat) (hsort : List.Pairwise tsLe l) :
    (insertByKey x l).filter (fun ev => decide (sortKey ev = t)) =
      l.filter (fun ev => decide (sortKey ev = t)) ++
        (if sortKey x = t then [x] else []) := by
  induction l with
  | nil =>
    rw [insertByKey]
    by_cases hx : sortKey x = t
    · simp [hx]
    · simp [hx]
  | cons y ys ih =>
    rcases List.pairwise_cons.mp hsort with ⟨hy, hys⟩
    rw [insertByKey]
    by_cases hle : sortKey y ≤ sortKey x
    · rw [if_pos hle]
      by_cases hyt : sortKey y = t
      · simp only [List.filter_cons, decide_eq_true_eq, if_pos hyt, hyt]
        rw [ih hys]
        simp
      · simp only [List.filter_cons, decide_eq_true_eq, if_neg hyt]
        exact ih hys
    · rw [if_neg hle]
      have hxy : sortKey x < sortKey y := lt_of_not_le hle
      by_cases hxt : sortKey x = t
      · have hnil : (y :: ys).filter (fun ev => decide (sortKey ev = t)) = [] := by
          apply List.filter_eq_nil_iff.mpr
          intro z hz
          simp only [decide_eq_true_eq]
          intro hzt
          rcases List.mem_cons.mp hz with hz2 | hz2
          · rw [hz2] at hzt
            exact absurd (hzt.trans hxt.symm) (ne_of_gt hxy)
          · have := hy z hz2
            have : sortKey x < sortKey z := lt_of_lt_of_le hxy this
            exact absurd (hzt.trans hxt.symm) (ne_of_gt this)
        rw [List.filter_cons, hnil]
        simp [hxt]
      · rw [List.filter_cons]
        simp [hxt]

theorem filter_foldl_insert (l : List DecodedEvent) (t : Rat) :
    ∀ acc, List.Pairwise tsLe acc →
      (l.foldl (fun a x => insertByKey x a) acc).filter
          (fun ev => decide (sortKey ev = t)) =
        acc.filter (fun ev => decide (sortKey ev = t)) ++
          l.filter (fun ev => decide (sortKey ev = t)) := by
  induction l with
  | nil => intro acc _; simp
  | cons x xs ih =>
    intro acc h
    rw [List.foldl_cons, ih (insertByKey x acc) (pairwise_insertByKey x acc h),
      filter_insertByKey x acc t h, List.append_assoc, List.filter_cons]
    by_cases hxt : sortKey x = t
    · simp [hxt]
    · simp [hxt]

theorem filter_sortByKey (l : List DecodedEvent) (t : Rat) :
    (sortByKey l).filter (fun ev => decide (sortKey ev = t)) =
      l.filter (fun ev => decide (sortKey ev = t)) := by
  rw [sortByKey, filter_foldl_insert l t [] List.Pairwise.nil]
  rfl

theorem length_insertByKey (x : DecodedEvent) (l : List DecodedEvent) :
    (insertByKey x l).length = l.length + 1 := by
  induction l with
  | nil => rfl
  | cons y ys ih =>
    rw [insertByKey]
    by_cases h : sortKey y ≤ sortKey x
    · rw [if_pos h]
      simp [ih]
    · rw [if_neg h]
      simp

theorem length_sortByKey (l : List DecodedEvent) :
    (sortByKey l).length = l.length := by
  rw [sortByKey]
  have : ∀ acc, (l.foldl (fun a x => insertByKey x a) acc).length =
      acc.length + l.length := by
    induction l with
    | nil => intro acc; simp
    | cons x xs ih =>
      intro acc
      rw [List.foldl_cons, ih (insertByKey x acc), length_insertByKey]
      simp
      omega
  rw [this []]
  simp

theorem pySorted_ok_pairwise (evts out : List DecodedEvent)
    (h : pySortedByTimestamp evts = .ok out) : List.Pairwise tsLe out := by
  rw [pySortedByTimestamp] at h
  by_cases h1 : evts.length ≤ 1
  · rw [if_pos h1] at h
    have := Except.ok.inj h
    rw [← this]
    cases evts with
    | nil => exact List.Pairwise.nil
    | cons a l =>
      cases l with
      | nil => exact List.pairwise_singleton _ _
      | cons b l2 => simp at h1
  · rw [if_neg h1] at h
    by_cases h2 : evts.all fun e => e.timestamp.isSome
    · rw [if_pos h2] at h
      have := Except.ok.inj h
      rw [← this]
      exact pairwise_sortByKey evts
    · rw [if_neg h2] at h
      exact absurd h (by simp)

theorem pySorted_ok_filter (evts out : List DecodedEvent)
    (h : pySortedByTimestamp evts = .ok out) (t : Rat) :
    out.filter (fun ev => decide (sortKey ev = t)) =
      evts.filter (fun ev => decide (sortKey ev = t)) := by
  rw [pySortedByTimestamp] at h
  by_cases h1 : evts.length ≤ 1
  · rw [if_pos h1] at h
    rw [← Except.ok.inj h]
  · rw [if_neg h1] at h
    by_cases h2 : evts.all fun e => e.timestamp.isSome
    · rw [if_pos h2] at h
      rw [← Except.ok.inj h]
      exact filter_sortByKey evts t
    · rw [if_neg h2] at h
      exact absurd h (by simp)

theorem pySorted_ok_length (evts out : List DecodedEvent)
    (h : pySortedByTimestamp evts = .ok out) : out.length = evts.length := by
  rw [pySortedByTimestamp] at h
  by_cases h1 : evts.length ≤ 1
  · rw [if_pos h1] at h
    rw [← Except.ok.inj h]
  · rw [if_neg h1] at h
    by_cases h2 : evts.all fun e => e.timestamp.isSome
    · rw [if_pos h2] at h
      rw [← Except.ok.inj h]
      exact length_sortByKey evts
    · rw [if_neg h2] at h
      exact absurd h (by simp)

/-! ## Lemmas: hit processing -/

/-- The decode of one hit, as a partial function: `none` when the hit
is skipped (non-string id or malformed key) or its decode fails. -/
def decodeHitOpt : Hit → Option (String × DecodedEvent)
  | (none, _, _) => none
  | (some key, m, d) =>
    match rsplitUnderscore key with
    | none => none
    | some (sid, eid) => (decodeEvent eid m d).toOption.map fun dv => (sid, dv)

/-- The session ids of the decodable hits, in hit order. -/
def hitSids (hits : List Hit) : List String :=
  (hits.filterMap decodeHitOpt).map Prod.fst

/-- The decoded events of one session, in hit order. -/
def sessionEventsOf (hits : List Hit) (sid : String) : List DecodedEvent :=
  ((hits.filterMap decodeHitOpt).filter fun p => decide (p.1 = sid)).map
    Prod.snd

/-- First-match lookup in the grouped accumulator. -/
def groupLookup : List (String × List DecodedEvent) → String → List DecodedEvent
  | [], _ => []
  | (s2, evs) :: rest, sid => if s2 = sid then evs else groupLookup rest sid

/-- Total number of events across all groups. -/
def totalGroups (gs : List (String × List DecodedEvent)) : Nat :=
  (gs.map fun g => g.2.length).sum

/-- Total number of events across all memory results. -/
def totalEvents (resp : SearchMemoryResponse) : Nat :=
  (resp.memories.map fun mr => mr.events.length).sum

/-- The number of hits a query response carries. -/
def hitCount (r : QueryResults) : Nat :=
  match guardIds r with
  | some l => l.length
  | none => 0

theorem accAppend_keys (acc : List (String × List DecodedEvent))
    (sid : String) (ev : DecodedEvent) :
    (accAppend acc sid ev).map Prod.fst =
      if (acc.map Prod.fst).contains sid then acc.map Prod.fst
      else acc.map Prod.fst ++ [sid] := by
  rw [accAppend]
  by_cases hc : (acc.map Prod.fst).contains sid
  · rw [if_pos hc, if_pos hc, List.map_map]
    apply List.map_congr_left
    intro g _
    by_cases hg : g.1 = sid <;> simp [hg]
  · rw [if_neg hc, if_neg hc]
    simp

theorem accAppend_nodup (acc : List (String × List DecodedEvent))
    (sid : String) (ev : DecodedEvent)
    (hnd : (acc.map Prod.fst).Nodup) :
    ((accAppend acc sid ev).map Prod.fst).Nodup := by
  rw [accAppend_keys]
  by_cases hc : (acc.map Prod.fst).contains sid
  · rw [if_pos hc]; exact hnd
  · rw [if_neg hc]
    have : sid ∉ acc.map Prod.fst := by simpa using hc
    simp [List.nodup_append, hnd, this]

theorem groupLookup_mapAdd_ne (rest : List (String × List DecodedEvent))
    (sid' : String) (ev : DecodedEvent) (sid : String) (h : sid ≠ sid') :
    groupLookup (rest.map fun g => if g.1 = sid' then (g.1, g.2 ++ [ev]) else g)
      sid = groupLookup rest sid := by
  induction rest with
  | nil => rfl
  | cons g gs ih =>
    obtain ⟨s2, evs⟩ := g
    simp only [List.map_cons]
    by_cases hg : s2 = sid'
    · rw [if_pos (show (s2, evs).1 = sid' from hg)]
      have hs2 : ¬ s2 = sid := fun hh => h (hh ▸ hg)
      rw [groupLookup, if_neg hs2, ih, groupLookup, if_neg hs2]
    · rw [if_neg (show ¬ (s2, evs).1 = sid' from hg)]
      rw [groupLookup, groupLookup]
      by_cases hs2 : s2 = sid
      · rw [if_pos hs2, if_pos hs2]
      · rw [if_neg hs2, if_neg hs2, ih]

theorem groupLookup_mapAdd_eq (acc : List (String × List DecodedEvent))
    (sid' : String) (ev : DecodedEvent)
    (hmem : sid' ∈ acc.map Prod.fst) :
    groupLookup (acc.map fun g => if g.1 = sid' then (g.1, g.2 ++ [ev]) else g)
      sid' = groupLookup acc sid' ++ [ev] := by
  induction acc with
  | nil => simp at hmem
  | cons g gs ih =>
    obtain ⟨s2, evs⟩ := g
    simp only [List.map_cons]
    by_cases hg : s2 = sid'
    · rw [if_pos (show (s2, evs).1 = sid' from hg)]
      rw [groupLookup, if_pos hg, groupLookup, if_pos hg]
    · rw [if_neg (show ¬ (s2, evs).1 = sid' from hg)]
      rw [groupLookup, if_neg hg, groupLookup, if_neg hg]
      apply ih
      rcases List.mem_map.mp hmem with ⟨p, hp, hpe⟩
      rcases List.mem_cons.mp hp with hp2 | hp2
      · exact absurd (by rw [hp2] at hpe; exact hpe) hg
      · exact List.mem_map.mpr ⟨p, hp2, hpe⟩

theorem groupLookup_append_new (acc : List (String × List DecodedEvent))
    (sid' : String) (ev : DecodedEvent) (sid : String)
    (hnot : sid' ∉ acc.map Prod.fst) :
    groupLookup (acc ++ [(sid', [ev])]) sid =
      groupLookup acc sid ++ (if sid' = sid then [ev] else []) := by
  induction acc with
  | nil =>
    rw [List.nil_append]
    by_cases hs : sid' = sid
    · rw [if_pos hs]
      show (if sid' = sid then [ev] else groupLookup [] sid) = [] ++ [ev]
      rw [if_pos hs]
      rfl
    · rw [if_neg hs]
      show (if sid' = sid then [ev] else groupLookup [] sid) = [] ++ []
      rw [if_neg hs]
      rfl
  | cons g gs ih =>
    obtain ⟨s2, evs⟩ := g
    have hs2 : s2 ≠ sid' := fun hh => hnot (by simp [hh])
    have hgs : sid' ∉ gs.map Prod.fst := fun hh => hnot (by simp [hh])
    rw [List.cons_append, groupLookup, groupLookup]
    by_cases hs : s2 = sid
    · rw [if_pos hs, if_pos hs]
      have : sid' ≠ sid := fun hh => hs2 (hs.trans hh.symm)
      rw [if_neg this]
      simp
    · rw [if_neg hs, if_neg hs, ih hgs]

theorem groupLookup_accAppend (acc : List (String × List DecodedEvent))
    (sid' : String) (ev : DecodedEvent) (sid : String) :
    groupLookup (accAppend acc sid' ev) sid =
      groupLookup acc sid ++ (if sid' = sid then [ev] else []) := by
  rw [accAppend]
  by_cases hc : (acc.map Prod.fst).contains sid'
  · rw [if_pos hc]
    have hmem : sid' ∈ acc.map Prod.fst := by simpa using hc
    by_cases hs : sid' = sid
    · rw [if_pos hs, ← hs]
      exact groupLookup_mapAdd_eq acc sid' ev hmem
    · rw [if_neg hs]
      rw [groupLookup_mapAdd_ne acc sid' ev sid (fun hh => hs hh.symm)]
      simp
  · rw [if_neg hc]
    exact groupLookup_append_new acc sid' ev sid (by simpa using hc)

theorem mapAdd_id_of_not_mem (acc : List (String × List DecodedEvent))
    (sid' : String) (ev : DecodedEvent) (h : sid' ∉ acc.map Prod.fst) :
    acc.map (fun g => if g.1 = sid' then (g.1, g.2 ++ [ev]) else g) = acc := by
  induction acc with
  | nil => rfl
  | cons g gs ih =>
    obtain ⟨s2, evs⟩ := g
    have hs2 : s2 ≠ sid' := fun hh => h (by simp [hh])
    have hgs : sid' ∉ gs.map Prod.fst := fun hh => h (by simp [hh])
    simp only [List.map_cons]
    rw [if_neg (show ¬ (s2, evs).1 = sid' from hs2), ih hgs]

theorem totalGroups_mapAdd (acc : List (String × List DecodedEvent))
    (sid' : String) (ev : DecodedEvent)
    (hnd : (acc.map Prod.fst).Nodup) (hmem : sid' ∈ acc.map Prod.fst) :
    totalGroups (acc.map fun g => if g.1 = sid' then (g.1, g.2 ++ [ev]) else g) =
      totalGroups acc + 1 := by
  induction acc with
  | nil => simp at hmem
  | cons g gs ih =>
    obtain ⟨s2, evs⟩ := g
    have hnd' := hnd
    simp only [List.map_cons] at hnd'
    rcases List.nodup_cons.mp hnd' with ⟨hs2nd, hgsnd⟩
    by_cases hg : s2 = sid'
    · have hnot : sid' ∉ gs.map Prod.fst := hg ▸ hs2nd
      simp only [List.map_cons]
      rw [if_pos (show (s2, evs).1 = sid' from hg),
        mapAdd_id_of_not_mem gs sid' ev hnot]
      simp only [totalGroups, List.map_cons, List.sum_cons]
      simp
      omega
    · have hmem2 : sid' ∈ gs.map Prod.fst := by
        rcases List.mem_map.mp hmem with ⟨p, hp, hpe⟩
        rcases List.mem_cons.mp hp with hp2 | hp2
        · exact absurd (by rw [hp2] at hpe; exact hpe) hg
        · exact List.mem_map.mpr ⟨p, hp2, hpe⟩
      simp only [List.map_cons]
      rw [if_neg (show ¬ (s2, evs).1 = sid' from hg)]
      have := ih hgsnd hmem2
      simp only [totalGroups, List.map_cons, List.sum_cons] at this ⊢
      omega

theorem totalGroups_accAppend (acc : List (String × List DecodedEvent))
    (sid' : String) (ev : DecodedEvent)
    (hnd : (acc.map Prod.fst).Nodup) :
    totalGroups (accAppend acc sid' ev) = totalGroups acc + 1 := by
  rw [accAppend]
  by_cases hc : (acc.map Prod.fst).contains sid'
  · rw [if_pos hc]
    exact totalGroups_mapAdd acc sid' ev hnd (by simpa using hc)
  · rw [if_neg hc]
    simp [totalGroups]

theorem groupLookup_of_mem_nodup (gs : List (String × List DecodedEvent))
    (sid : String) (evs : List DecodedEvent)
    (hmem : (sid, evs) ∈ gs) (hnd : (gs.map Prod.fst).Nodup) :
    groupLookup gs sid = evs := by
  induction gs with
  | nil => simp at hmem
  | cons g rest ih =>
    obtain ⟨s2, evs2⟩ := g
    have hnd' := hnd
    simp only [List.map_cons] at hnd'
    rcases List.nodup_cons.mp hnd' with ⟨hs2nd, hrestnd⟩
    rcases List.mem_cons.mp hmem with hm | hm
    · have h1 : s2 = sid := (congrArg Prod.fst hm.symm)
      have h2 : evs2 = evs := (congrArg Prod.snd hm.symm)
      rw [groupLookup, if_pos h1, h2]
    · have hs2 : s2 ≠ sid := by
        intro hh
        exact hs2nd (hh ▸ List.mem_map.mpr ⟨(sid, evs), hm, rfl⟩)
      rw [groupLookup, if_neg hs2]
      exact ih hm hrestnd

theorem exceptBind_error {α β : Type} (e : SearchErr)
    (f : α → Except SearchErr β) :
    (Except.error e : Except SearchErr α) >>= f = .error e := rfl

theorem firstOccurAux_cons (x : String) (l acc : List String) :
    firstOccurAux (x :: l) acc =
      firstOccurAux l (if acc.contains x then acc else acc ++ [x]) := rfl

theorem processHits_ok_spec (hits : List Hit) :
    ∀ acc groups, processHits hits acc = .ok groups →
      groups.map Prod.fst = firstOccurAux (hitSids hits) (acc.map Prod.fst) ∧
      ∀ sid, groupLookup groups sid =
        groupLookup acc sid ++ sessionEventsOf hits sid := by
  induction hits with
  | nil =>
    intro acc groups h
    have hge := Except.ok.inj h
    subst hge
    refine ⟨rfl, fun sid => by simp [sessionEventsOf]⟩
  | cons h0 rest ih =>
    intro acc groups hp
    obtain ⟨cell, m, d⟩ := h0
    cases cell with
    | none =>
      have heq : processHits ((none, m, d) :: rest) acc = processHits rest acc := rfl
      rw [heq] at hp
      have hspec := ih acc groups hp
      have hskip : decodeHitOpt (none, m, d) = none := rfl
      constructor
      · rw [hspec.1]
        simp [hitSids, List.filterMap_cons, hskip]
      · intro sid
        rw [hspec.2 sid]
        simp [sessionEventsOf, List.filterMap_cons, hskip]
    | some key =>
      cases hsp : rsplitUnderscore key with
      | none =>
        have heq : processHits ((some key, m, d) :: rest) acc =
            processHits rest acc := by
          simp only [processHits, hsp]
        rw [heq] at hp
        have hspec := ih acc groups hp
        have hskip : decodeHitOpt (some key, m, d) = none := by
          simp only [decodeHitOpt, hsp]
        constructor
        · rw [hspec.1]
          simp [hitSids, List.filterMap_cons, hskip]
        · intro sid
          rw [hspec.2 sid]
          simp [sessionEventsOf, List.filterMap_cons, hskip]
      | some p =>
        obtain ⟨sid', eid⟩ := p
        cases hde : decodeEvent eid m d with
        | error e =>
          have heq : processHits ((some key, m, d) :: rest) acc = .error e := by
            simp only [processHits, hsp, hde]
          rw [heq] at hp
          exact absurd hp (by simp)
        | ok ev =>
          have heq : processHits ((some key, m, d) :: rest) acc =
              processHits rest (accAppend acc sid' ev) := by
            simp only [processHits, hsp, hde]
          rw [heq] at hp
          have hspec := ih (accAppend acc sid' ev) groups hp
          have hdh : decodeHitOpt (some key, m, d) = some (sid', ev) := by
            simp only [decodeHitOpt, hsp, hde, Except.toOption]
            rfl
          have hsids : hitSids ((some key, m, d) :: rest) = sid' :: hitSids rest := by
            simp [hitSids, List.filterMap_cons, hdh]
          constructor
          · rw [hspec.1, accAppend_keys, hsids, firstOccurAux_cons]
          · intro sid
            rw [hspec.2 sid, groupLookup_accAppend, List.append_assoc]
            have hses : sessionEventsOf ((some key, m, d) :: rest) sid =
                (if sid' = sid then [ev] else []) ++ sessionEventsOf rest sid := by
              simp only [sessionEventsOf, List.filterMap_cons, hdh,
                List.filter_cons]
              by_cases hs : sid' = sid
              · simp [hs]
              · simp [hs]
            rw [hses]

theorem processHits_total (hits : List Hit) :
    ∀ acc groups, (acc.map Prod.fst).Nodup →
      processHits hits acc = .ok groups →
      totalGroups groups ≤ totalGroups acc + hits.length := by
  induction hits with
  | nil =>
    intro acc groups _ h
    have hge := Except.ok.inj h
    subst hge
    simp
  | cons h0 rest ih =>
    intro acc groups hnd hp
    obtain ⟨cell, m, d⟩ := h0
    cases cell with
    | none =>
      have heq : processHits ((none, m, d) :: rest) acc = processHits rest acc := rfl
      rw [heq] at hp
      have := ih acc groups hnd hp
      simp only [List.length_cons]
      omega
    | some key =>
      cases hsp : rsplitUnderscore key with
      | none =>
        have heq : processHits ((some key, m, d) :: rest) acc =
            processHits rest acc := by
          simp only [processHits, hsp]
        rw [heq] at hp
        have := ih acc groups hnd hp
        simp only [List.length_cons]
        omega
      | some p =>
        obtain ⟨sid', eid⟩ := p
        cases hde : decodeEvent eid m d with
        | error e =>
          have heq : processHits ((some key, m, d) :: rest) acc = .error e := by
            simp only [processHits, hsp, hde]
          rw [heq] at hp
          exact absurd hp (by simp)
        | ok ev =>
          have heq : processHits ((some key, m, d) :: rest) acc =
              processHits rest (accAppend acc sid' ev) := by
            simp only [processHits, hsp, hde]
          rw [heq] at hp
          have := ih (accAppend acc sid' ev) groups
            (accAppend_nodup acc sid' ev hnd) hp
          rw [totalGroups_accAppend acc sid' ev hnd] at this
          simp only [List.length_cons]
          omega

/-- Whether a search outcome is a propagated failure. -/
def isError {α : Type} : Except SearchErr α → Bool
  | .error _ => true
  | .ok _ => false

/-- A stored structured-field value is corrupt: nonempty text that the
structured-text parser rejects. -/
def corruptStructured (v : Option Scalar) : Prop :=
  ∃ str, v = some (.s str) ∧ str ≠ "" ∧ decodeStrList str = none

theorem decodeStructuredField_corrupt (field : String) (v : Option Scalar)
    (hc : corruptStructured v) :
    decodeStructuredField field v = .error (.decodeFailure field) := by
  obtain ⟨str, hv, hne, hdec⟩ := hc
  rw [hv]
  simp [decodeStructuredField, pyTruthy, hne, hdec]

theorem parseMetaJson_corrupt (v : Option Scalar) (hc : corruptStructured v) :
    parseMetaJson v = .error (.decodeFailure "custom_metadata") := by
  obtain ⟨str, hv, hne, hdec⟩ := hc
  rw [hv, parseMetaJson, if_neg hne, hdec]

theorem decodeEvent_error_of_corrupt (eid : String) (m : Metadata) (d : String)
    (hc : corruptStructured m.actions ∨ corruptStructured m.groundingMetadata ∨
      corruptStructured m.customMetadata) :
    ∃ e, decodeEvent eid m d = .error e := by
  rcases hc with hc | hc | hc
  · exact ⟨.decodeFailure "actions", by
      simp only [decodeEvent, decodeStructuredField_corrupt "actions" m.actions hc,
        exceptBind_error]⟩
  · cases hA : decodeStructuredField "actions" m.actions with
    | error e => exact ⟨e, by simp only [decodeEvent, hA, exceptBind_error]⟩
    | ok a =>
      cases hB : decodeToolIdsField m.longRunningToolIds with
      | error e =>
        exact ⟨e, by simp only [decodeEvent, hA, exceptBind_ok, hB,
          exceptBind_error]⟩
      | ok t =>
        exact ⟨.decodeFailure "grounding_metadata", by
          simp only [decodeEvent, hA, exceptBind_ok, hB,
            decodeStructuredField_corrupt "grounding_metadata"
              m.groundingMetadata hc, exceptBind_error]⟩
  · cases hA : decodeStructuredField "actions" m.actions with
    | error e => exact ⟨e, by simp only [decodeEvent, hA, exceptBind_error]⟩
    | ok a =>
      cases hB : decodeToolIdsField m.longRunningToolIds with
      | error e =>
        exact ⟨e, by simp only [decodeEvent, hA, exceptBind_ok, hB,
          exceptBind_error]⟩
      | ok t =>
        cases hG : decodeStructuredField "grounding_metadata"
            m.groundingMetadata with
        | error e =>
          exact ⟨e, by simp only [decodeEvent, hA, exceptBind_ok, hB, hG,
            exceptBind_error]⟩
        | ok g =>
          exact ⟨.decodeFailure "custom_metadata", by
            simp only [decodeEvent, hA, exceptBind_ok, hB, hG,
              parseMetaJson_corrupt m.customMetadata hc, exceptBind_error]⟩

theorem processHits_error (hits : List Hit) (key : String) (m : Metadata)
    (d : String) (hmem : (some key, m, d) ∈ hits)
    (hu : hasUnderscore key = true)
    (hc : corruptStructured m.actions ∨ corruptStructured m.groundingMetadata ∨
      corruptStructured m.customMetadata) :
    ∀ acc, ∃ e, processHits hits acc = .error e := by
  induction hits with
  | nil => simp at hmem
  | cons h0 rest ih =>
    intro acc
    rcases List.mem_cons.mp hmem with hh | hh
    · obtain ⟨p, hsp⟩ : ∃ p, rsplitUnderscore key = some p := by
        cases hr : rsplitUnderscore key with
        | none =>
          rw [(rsplitUnderscore_none_iff key).mp hr] at hu
          exact absurd hu (by simp)
        | some p => exact ⟨p, rfl⟩
      obtain ⟨sid', eid⟩ := p
      obtain ⟨e, he⟩ := decodeEvent_error_of_corrupt eid m d hc
      refine ⟨e, ?_⟩
      rw [← hh]
      simp only [processHits, hsp, he]
    · obtain ⟨cell, m2, d2⟩ := h0
      cases cell with
      | none => exact ih hh acc
      | some k2 =>
        cases hsp : rsplitUnderscore k2 with
        | none =>
          obtain ⟨e, he⟩ := ih hh acc
          exact ⟨e, by simp only [processHits, hsp]; exact he⟩
        | some p =>
          obtain ⟨sid2, eid2⟩ := p
          cases hde : decodeEvent eid2 m2 d2 with
          | error e => exact ⟨e, by simp only [processHits, hsp, hde]⟩
          | ok ev =>
            obtain ⟨e, he⟩ := ih hh (accAppend acc sid2 ev)
            exact ⟨e, by simp only [processHits, hsp, hde]; exact he⟩

/-- Specification of the group-sorting loop: it preserves the group
order and session ids, and each result's events are the sorted events
of a group of that session. -/
theorem sortGroups_spec (groups : List (String × List DecodedEvent)) :
    ∀ mems, sortGroups groups = .ok mems →
      mems.map (·.sessionId) = groups.map Prod.fst ∧
      totalEvents ⟨mems⟩ = totalGroups groups ∧
      ∀ mr ∈ mems, ∃ evs, (mr.sessionId, evs) ∈ groups ∧
        pySortedByTimestamp evs = .ok mr.events := by
  induction groups with
  | nil =>
    intro mems h
    have := Except.ok.inj h
    rw [← this]
    exact ⟨rfl, rfl, fun mr hmr => by simp at hmr⟩
  | cons g rest ih =>
    intro mems h
    obtain ⟨sid, evs⟩ := g
    rw [sortGroups] at h
    cases hs : pySortedByTimestamp evs with
    | error e =>
      rw [hs] at h
      exact absurd h (by simp [exceptBind_error])
    | ok sorted =>
      rw [hs] at h
      cases hrest : sortGroups rest with
      | error e =>
        rw [hrest] at h
        exact absurd h (by simp [exceptBind_ok, exceptBind_error])
      | ok more =>
        rw [hrest] at h
        have hmems : mems = ⟨sid, sorted⟩ :: more := by
          have : (Except.ok (⟨sid, sorted⟩ :: more) :
              Except SearchErr (List MemoryResult)) = .ok mems := h
          exact (Except.ok.inj this).symm
        subst hmems
        obtain ⟨ihsids, ihtot, ihmem⟩ := ih more hrest
        refine ⟨?_, ?_, ?_⟩
        · simp [ihsids]
        · simp only [totalEvents, List.map_cons, List.sum_cons] at ihtot ⊢
          rw [pySorted_ok_length evs sorted hs] at *
          simp only [totalGroups, List.map_cons, List.sum_cons]
          rw [show ((more.map fun mr => mr.events.length).sum =
            (rest.map fun g => g.2.length).sum) from ihtot]
        · intro mr hmr
          rcases List.mem_cons.mp hmr with hm | hm
          · exact ⟨evs, by simp [hm], by rw [hm] at *; exact hs⟩
          · obtain ⟨evs2, hmem2, hs2⟩ := ihmem mr hm
            exact ⟨evs2, List.mem_cons.mpr (Or.inr hmem2), hs2⟩

theorem zipHits_length_le (a : List (Option String)) (b : List Metadata)
    (c : List String) : (zipHits a b c).length ≤ a.length := by
  induction a generalizing b c with
  | nil => cases b <;> cases c <;> simp [zipHits]
  | cons x xs ih =>
    cases b with
    | nil => simp [zipHits]
    | cons y ys =>
      cases c with
      | nil => simp [zipHits]
      | cons z zs =>
        rw [zipHits]
        have := ih ys zs
        simp only [List.length_cons]
        omega

/-- Result assembly never returns more events than the response has
hits. -/
theorem assemble_total (r : QueryResults) (resp : SearchMemoryResponse)
    (hok : assembleSearchResults r = .ok resp) :
    totalEvents resp ≤ hitCount r := by
  cases hg : guardIds r with
  | none =>
    rw [assembleSearchResults, hg] at hok
    have := Except.ok.inj hok
    rw [← this]
    simp [totalEvents]
  | some docIds =>
    rw [hitCount, hg]
    cases hm : r.metadatas.getD [[]] with
    | nil =>
      simp [assembleSearchResults, hg, hm, pyFirst, exceptBind_error] at hok
    | cons ms mtl =>
      cases hd : r.documents.getD [[]] with
      | nil =>
        simp [assembleSearchResults, hg, hm, hd, pyFirst, exceptBind_ok,
          exceptBind_error] at hok
      | cons ds dtl =>
        rw [assembleSearchResults_eq r docIds hg ms mtl hm ds dtl hd] at hok
        by_cases hlen : docIds.length = ms.length ∧ ms.length = ds.length
        · rw [if_pos hlen] at hok
          cases hpg : processHits (zipHits docIds ms ds) [] with
          | error e =>
            rw [hpg] at hok
            exact absurd hok (by simp [exceptBind_error])
          | ok groups =>
            cases hsg : sortGroups groups with
            | error e =>
              simp only [hpg, exceptBind_ok, hsg, exceptBind_error] at hok
              exact absurd hok (by simp)
            | ok mems =>
              simp only [hpg, exceptBind_ok, hsg] at hok
              have hresp := Except.ok.inj hok
              obtain ⟨_, htot, _⟩ := sortGroups_spec groups mems hsg
              have hbound := processHits_total (zipHits docIds ms ds) [] groups
                (by simp) hpg
              have hlen2 := zipHits_length_le docIds ms ds
              rw [← hresp, htot]
              simp only [totalGroups, List.map_nil, List.sum_nil] at hbound ⊢
              omega
        · rw [if_neg hlen] at hok
          have := Except.ok.inj hok
          rw [← this]
          simp [totalEvents]

/-- Claim C5: a hit whose actions, grounding-metadata or
custom-metadata text is unparsable is not recovered: the whole search
assembly returns an error, never a partial result. -/
theorem claimC5 (r : QueryResults) (docIds : List (Option String))
    (hg : guardIds r = some docIds)
    (ms : List Metadata) (mtl : List (List Metadata))
    (hm : r.metadatas.getD [[]] = ms :: mtl)
    (ds : List String) (dtl : List (List String))
    (hd : r.documents.getD [[]] = ds :: dtl)
    (hlen : docIds.length = ms.length ∧ ms.length = ds.length)
    (key : String) (md : Metadata) (d : String)
    (hmem : (some key, md, d) ∈ zipHits docIds ms ds)
    (hu : hasUnderscore key = true)
    (hc : corruptStructured md.actions ∨
      corruptStructured md.groundingMetadata ∨
      corruptStructured md.customMetadata) :
    isError (assembleSearchResults r) = true := by
  obtain ⟨e, he⟩ :=
    processHits_error (zipHits docIds ms ds) key md d hmem hu hc []
  rw [assembleSearchResults_eq r docIds hg ms mtl hm ds dtl hd, if_pos hlen]
  simp only [he, exceptBind_error]
  rfl

/-- Stored metadata with an unparsable actions text. -/
def mC5 : Metadata where
  sessionId := some (.s "s")
  eventId := some (.s "e1")
  invocationId := some (.s "inv")
  author := some (.s "user")
  timestamp := some (.f 1)
  branch := some (.s "")
  actions := some (.s "xx")
  longRunningToolIds := some (.s "")
  groundingMetadata := some (.s "")
  partialFlag := some (.s "")
  turnComplete := some (.s "")
  errorCode := some (.s "")
  errorMessage := some (.s "")
  interrupted := some (.s "")
  customMetadata := some (.s "")

/-- A one-hit query response whose hit has corrupt actions text. -/
def rC5 : QueryResults where
  ids := some [.lst [some "s_e1"]]
  metadatas := some [[mC5]]
  documents := some [["d1"]]

/-- Claim C5 witness: the corrupt-actions hit aborts the whole search
assembly with an error. -/
theorem claimC5_witness : isError (assembleSearchResults rC5) = true :=
  claimC5 rC5 [some "s_e1"] rfl [mC5] [] rfl ["d1"] [] rfl (by decide)
    "s_e1" mC5 "d1" (by simp [zipHits]) (by decide)
    (Or.inl ⟨"xx", rfl, by decide, by decide⟩)

/-- Claim C8: when the index honors the query bound (at most
`n_results` hits), the total number of events across all memory
results of a successful search is at most the configured `top_k`,
whose default is 10. -/
theorem claimC8 (cl : Client) (appName userId query : String) (topK : Nat)
    (exec : Collection → QueryArgs → Except String QueryResults)
    (hexec : ∀ col args res, exec col args = .ok res →
      hitCount res ≤ args.nResults)
    (resp : SearchMemoryResponse)
    (hok : (searchMemory cl appName userId query topK exec).2 = .ok resp) :
    totalEvents resp ≤ topK ∧ defaultTopK = 10 := by
  refine ⟨?_, rfl⟩
  cases hcol : cl (appName ++ "_" ++ userId) with
  | none =>
    simp only [searchMemory, hcol] at hok
    have := Except.ok.inj hok
    rw [← this]
    simp [totalEvents]
  | some col =>
    simp only [searchMemory, hcol] at hok
    cases hex : exec col (searchQueryArgs query topK) with
    | error e =>
      simp only [hex] at hok
      exact absurd hok (by simp)
    | ok res =>
      simp only [hex] at hok
      have hbound := hexec col (searchQueryArgs query topK) res hex
      exact le_trans (assemble_total res resp hok) hbound

/-- An index stub returning no hits at all. -/
def execEmpty : Collection → QueryArgs → Except String QueryResults :=
  fun _ _ => .ok ⟨none, none, none⟩

/-- A client holding one empty collection under "a_u". -/
def clC8 : Client := fun ns => if ns = "a_u" then some [] else none

/-- Claim C8 witness: a concrete bounded search returns at most `topK`
events. -/
theorem claimC8_witness :
    totalEvents ⟨[]⟩ ≤ 5 ∧ defaultTopK = 10 :=
  claimC8 clC8 "a" "u" "q" 5 execEmpty
    (fun col args res h => by
      rw [← Except.ok.inj h]
      exact Nat.zero_le _)
    ⟨[]⟩ rfl

/-- Claim C6: in a successful search, the memory results carry exactly
one entry per distinct session id of the decodable hits, in
first-encounter order, and each result's events are sorted ascending by
timestamp key with ties keeping their hit order (stability stated as:
for every key value, the events with that key appear exactly as they do
in hit order). -/
theorem claimC6 (r : QueryResults) (docIds : List (Option String))
    (hg : guardIds r = some docIds)
    (ms : List Metadata) (mtl : List (List Metadata))
    (hm : r.metadatas.getD [[]] = ms :: mtl)
    (ds : List String) (dtl : List (List String))
    (hd : r.documents.getD [[]] = ds :: dtl)
    (hlen : docIds.length = ms.length ∧ ms.length = ds.length)
    (resp : SearchMemoryResponse)
    (hok : assembleSearchResults r = .ok resp) :
    resp.memories.map (·.sessionId) =
      firstOccur (hitSids (zipHits docIds ms ds)) ∧
    (resp.memories.map (·.sessionId)).Nodup ∧
    ∀ mr ∈ resp.memories,
      List.Pairwise tsLe mr.events ∧
      ∀ t, mr.events.filter (fun ev => decide (sortKey ev = t)) =
        (sessionEventsOf (zipHits docIds ms ds) mr.sessionId).filter
          (fun ev => decide (sortKey ev = t)) := by
  rw [assembleSearchResults_eq r docIds hg ms mtl hm ds dtl hd,
    if_pos hlen] at hok
  cases hpg : processHits (zipHits docIds ms ds) [] with
  | error e =>
    rw [hpg] at hok
    exact absurd hok (by simp [exceptBind_error])
  | ok groups =>
    cases hsg : sortGroups groups with
    | error e =>
      simp only [hpg, exceptBind_ok, hsg, exceptBind_error] at hok
      exact absurd hok (by simp)
    | ok mems =>
      simp only [hpg, exceptBind_ok, hsg] at hok
      have hresp := Except.ok.inj hok
      subst hresp
      obtain ⟨hkeys, hlook⟩ :=
        processHits_ok_spec (zipHits docIds ms ds) [] groups hpg
      obtain ⟨hsids, _, hmemspec⟩ := sortGroups_spec groups mems hsg
      have hnd : (groups.map Prod.fst).Nodup := by
        rw [hkeys]
        exact firstOccurAux_nodup _ _ (by simp)
      refine ⟨?_, ?_, ?_⟩
      · show mems.map (·.sessionId) = _
        rw [hsids, hkeys]
        rfl
      · show (mems.map (·.sessionId)).Nodup
        rw [hsids, hkeys]
        exact firstOccurAux_nodup _ _ (by simp)
      · intro mr hmr
        obtain ⟨evs, hmemg, hsorted⟩ := hmemspec mr hmr
        have hevs : evs = groupLookup groups mr.sessionId :=
          (groupLookup_of_mem_nodup groups mr.sessionId evs hmemg hnd).symm
        have hgl : groupLookup groups mr.sessionId =
            sessionEventsOf (zipHits docIds ms ds) mr.sessionId := by
          rw [hlook mr.sessionId]
          rfl
        refine ⟨pySorted_ok_pairwise evs mr.events hsorted, ?_⟩
        intro t
        rw [pySorted_ok_filter evs mr.events hsorted t, hevs, hgl]

/-- Stored metadata for session "sa"/"sb" hits with a given timestamp
(all optional payloads absent). -/
def mC6 (eid : String) (ts : Rat) : Metadata where
  sessionId := some (.s "s")
  eventId := some (.s eid)
  invocationId := some (.s "inv")
  author := some (.s "user")
  timestamp := some (.f ts)
  branch := some (.s "")
  actions := some (.s "")
  longRunningToolIds := some (.s "")
  groundingMetadata := some (.s "")
  partialFlag := some (.s "")
  turnComplete := some (.s "")
  errorCode := some (.s "")
  errorMessage := some (.s "")
  interrupted := some (.s "")
  customMetadata := some (.s "")

/-- A three-hit response: sessions sa, sb, sa with timestamps 3, 5, 1. -/
def rC6 : QueryResults where
  ids := some [.lst [some "sa_e1", some "sb_e2", some "sa_e3"]]
  metadatas := some [[mC6 "e1" 3, mC6 "e2" 5, mC6 "e3" 1]]
  documents := some [["d1", "d2", "d3"]]

/-- The decoded event of one `mC6` hit. -/
def dC6 (eid : String) (ts : Rat) (doc : String) : DecodedEvent where
  id := eid
  invocationId := some (.s "inv")
  author := some (.s "user")
  timestamp := some ts
  contentText := doc
  branch := none
  actions := none
  longRunningToolIds := none
  groundingMetadata := none
  partialFlag := none
  turnComplete := none
  errorCode := none
  errorMessage := some (.s "")
  interrupted := none
  customMetadata := none

/-- What searching `rC6` returns: session sa first (events re-ordered
by timestamp 1 then 3), then session sb. -/
def respC6 : SearchMemoryResponse :=
  ⟨[⟨"sa", [dC6 "e3" 1 "d3", dC6 "e1" 3 "d1"]⟩,
    ⟨"sb", [dC6 "e2" 5 "d2"]⟩]⟩

/-- Claim C6 witness: the concrete three-hit response groups into
["sa", "sb"] in first-encounter order. -/
theorem claimC6_witness :
    respC6.memories.map (·.sessionId) =
      firstOccur (hitSids (zipHits [some "sa_e1", some "sb_e2", some "sa_e3"]
        [mC6 "e1" 3, mC6 "e2" 5, mC6 "e3" 1] ["d1", "d2", "d3"])) :=
  (claimC6 rC6 [some "sa_e1", some "sb_e2", some "sa_e3"] rfl
    [mC6 "e1" 3, mC6 "e2" 5, mC6 "e3" 1] [] rfl ["d1", "d2", "d3"] [] rfl
    (by decide) respC6 rfl).1

end ChromaSpec
